import Mathlib

/-!
Verification of the traversal-and-download core of `scripts/download_pdfs.py`:
a recursive crawler over Apache-style directory listings that mirrors PDF
files into a local destination directory.

The Python source is shallowly embedded:

* pure helpers (`normalize_directory_url`, `is_same_origin`,
  `is_within_base_path`, `should_skip_link`, `classify_link`,
  `build_local_path`) become Lean functions of the same names;
* the `urllib.parse` library functions the script calls (`urlparse`,
  `urldefrag`, `urljoin`, `unquote`) are modelled after CPython's
  implementations, restricted to the split components the script reads
  (scheme, netloc, path, query, fragment; the rarely-used `params`
  component is kept inside the path, which is where `urlunparse` would
  re-insert it verbatim).  CPython's WHATWG control-character stripping is
  omitted: the model is faithful for URLs free of ASCII control
  characters, and Unicode-aware `str.lower`/`str.strip`/UTF-8 percent
  decoding are modelled at the ASCII/single-byte level, which is exact for
  every ASCII input;
* the network is a parameter: directory listings come from a finite
  association list `pages` (a `none` lookup models `URLError`), HEAD
  sizes from an oracle `heads`, and GET body sizes from an oracle
  `bodies` (`none` models `URLError` on the GET);
* the filesystem is an association list from local paths (segment lists)
  to file sizes, with insertion shadowing earlier entries (overwrite);
* `download_file` and `crawl` become state-passing functions; `crawl`'s
  `while queue:` loop is run on explicit fuel, one unit per iteration, so
  the state after `k` loop iterations is the state at fuel `k`.

All definitions are executable; claims are settled by theorems about
these definitions, with concrete counterexamples evaluated by `decide`.
-/

namespace DownloadPdfs

/-! ## Python string primitives (character-level models) -/

/-- Python `str.lower`, modelled on ASCII letters (`str.lower` is
Unicode-aware; every string the script lowercases here is compared against
ASCII literals). -/
def pyLower (s : String) : String :=
  String.mk (s.data.map Char.toLower)

/-- Python `str.startswith`: is `pre` a prefix of `s`. -/
def pyStartsWith (s pre : String) : Bool :=
  pre.data.isPrefixOf s.data

/-- Python `str.endswith`: is `suf` a suffix of `s`. -/
def pyEndsWith (s suf : String) : Bool :=
  suf.data.isSuffixOf s.data

/-- Python whitespace for `str.strip` (ASCII part). -/
def pyIsSpace (c : Char) : Bool :=
  c = ' ' || c = '\t' || c = '\n' || c = '\r' || c = Char.ofNat 11 || c = Char.ofNat 12

/-- Python `str.strip()`. -/
def pyStrip (s : String) : String :=
  String.mk (((s.data.dropWhile pyIsSpace).reverse.dropWhile pyIsSpace).reverse)

/-- Python `s[n:]` (character count). -/
def pyDrop (s : String) (n : Nat) : String :=
  String.mk (s.data.drop n)

/-- Python `s.lstrip("/")`. -/
def pyLstripSlash (s : String) : String :=
  String.mk (s.data.dropWhile (fun c => c = '/'))

/-- Python `sep.join`, specialised to `"/"`. -/
def joinWithSlash : List String → String
  | [] => ""
  | [x] => x
  | x :: y :: rest => x ++ "/" ++ joinWithSlash (y :: rest)

/-- Single-character `str.split(sep)`: always returns at least one group,
empty groups preserved (CPython semantics for a nonempty separator). -/
def splitOnChar (sep : Char) : List Char → List (List Char)
  | [] => [[]]
  | c :: rest =>
    let r := splitOnChar sep rest
    if c = sep then [] :: r
    else
      match r with
      | g :: gs => (c :: g) :: gs
      | [] => [[c]]

/-- Python `s.split("/")`. -/
def pySplitSlash (s : String) : List String :=
  (splitOnChar '/' s.data).map String.mk

/-- Python `c in s` for a single character `c`. -/
def strContainsChar (s : String) (c : Char) : Bool :=
  s.data.contains c

/-! ## `urllib.parse` model -/

/-- Hex digit value, as in CPython's `unquote` tables. -/
def hexVal (c : Char) : Option Nat :=
  if '0' ≤ c ∧ c ≤ '9' then some (c.toNat - '0'.toNat)
  else if 'a' ≤ c ∧ c ≤ 'f' then some (c.toNat - 'a'.toNat + 10)
  else if 'A' ≤ c ∧ c ≤ 'F' then some (c.toNat - 'A'.toNat + 10)
  else none

/-- Percent-decoding on characters: each valid `%XX` escape becomes the
code point `XX`; invalid escapes are left untouched.  (CPython decodes
escape runs as UTF-8 with replacement; this model is byte-for-byte exact
on single-byte (ASCII) escapes, which covers every string in this
development.) -/
def unquoteChars : List Char → List Char
  | [] => []
  | '%' :: a :: b :: rest =>
    match hexVal a, hexVal b with
    | some ha, some hb => Char.ofNat (ha * 16 + hb) :: unquoteChars rest
    | _, _ => '%' :: unquoteChars (a :: b :: rest)
  | c :: rest => c :: unquoteChars rest

/-- Model of `urllib.parse.unquote`. -/
def unquote (s : String) : String :=
  String.mk (unquoteChars s.data)

/-- The components of `urllib.parse.urlsplit` that the script reads. -/
structure UrlSplitResult where
  scheme : String
  netloc : String
  path : String
  query : String
  fragment : String
deriving DecidableEq, Repr

/-- Characters allowed in a URL scheme (`urllib.parse.scheme_chars`). -/
def isSchemeChar (c : Char) : Bool :=
  c.isAlpha || c.isDigit || c = '+' || c = '-' || c = '.'

/-- Split a character list at the first occurrence of `d`, if any. -/
def splitAtChar : List Char → Char → Option (List Char × List Char)
  | [], _ => none
  | c :: rest, d =>
    if c = d then some ([], rest)
    else
      match splitAtChar rest d with
      | some (pre, post) => some (c :: pre, post)
      | none => none

/-- Longest prefix free of the given delimiters, plus the remainder. -/
def breakFirst (delims : List Char) : List Char → List Char × List Char
  | [] => ([], [])
  | c :: rest =>
    if delims.contains c then ([], c :: rest)
    else
      let r := breakFirst delims rest
      (c :: r.1, r.2)

/-- Model of `urllib.parse.urlsplit` (CPython): extract an explicit scheme when the
text before the first `:` is a nonempty run of scheme characters starting
with an ASCII letter; a netloc after `//` up to `/?#`; then split off the
fragment at the first `#` and the query at the first `?`. -/
def urlsplitList (url : List Char) : UrlSplitResult :=
  let schemeRest : String × List Char :=
    match splitAtChar url ':' with
    | some (pre, post) =>
      if pre ≠ [] ∧ (pre.headD ' ').isAlpha ∧ pre.all isSchemeChar then
        (String.mk (pre.map Char.toLower), post)
      else ("", url)
    | none => ("", url)
  let netlocRest : String × List Char :=
    match schemeRest.2 with
    | '/' :: '/' :: r =>
      let nr := breakFirst ['/', '?', '#'] r
      (String.mk nr.1, nr.2)
    | other => ("", other)
  let restFrag : List Char × String :=
    match splitAtChar netlocRest.2 '#' with
    | some (pre, post) => (pre, String.mk post)
    | none => (netlocRest.2, "")
  let pathQuery : String × String :=
    match splitAtChar restFrag.1 '?' with
    | some (pre, post) => (String.mk pre, String.mk post)
    | none => (String.mk restFrag.1, "")
  ⟨schemeRest.1, netlocRest.1, pathQuery.1, pathQuery.2, restFrag.2⟩

/-- Model of `urllib.parse.urlsplit` on strings. -/
def urlsplitStr (url : String) : UrlSplitResult :=
  urlsplitList url.data

/-- Model of `urllib.parse.urlunsplit`. -/
def urlunsplit (u : UrlSplitResult) : String :=
  let url := u.path
  let url :=
    if u.netloc ≠ "" ∨ pyStartsWith u.path "//" then
      "//" ++ u.netloc ++ (if url ≠ "" ∧ ¬ pyStartsWith url "/" then "/" ++ url else url)
    else url
  let url := if u.scheme ≠ "" then u.scheme ++ ":" ++ url else url
  let url := if u.query ≠ "" then url ++ "?" ++ u.query else url
  if u.fragment ≠ "" then url ++ "#" ++ u.fragment else url

/-- First component of `urllib.parse.urldefrag`: if the URL contains `#`,
reassemble it without its fragment, else return it unchanged. -/
def urldefragStr (url : String) : String :=
  if strContainsChar url '#' then
    let u := urlsplitStr url
    urlunsplit ⟨u.scheme, u.netloc, u.path, u.query, ""⟩
  else url

/-- The list `urllib.parse.uses_relative`. -/
def uses_relative : List String :=
  ["", "ftp", "http", "gopher", "nntp", "imap", "wais", "file", "https",
   "shttp", "mms", "prospero", "rtsp", "rtspu", "sftp", "svn", "svn+ssh",
   "ws", "wss"]

/-- The list `urllib.parse.uses_netloc`. -/
def uses_netloc : List String :=
  ["", "ftp", "http", "gopher", "nntp", "telnet", "imap", "wais", "file",
   "mms", "https", "shttp", "snews", "prospero", "rtsp", "rtspu", "rsync",
   "svn", "svn+ssh", "sftp", "nfs", "git", "git+ssh", "ws", "wss",
   "itms-services"]

/-- Drop empty segments from a list, but always keep the final element:
CPython's `segments[1:-1] = filter(None, segments[1:-1])` applied to the
tail of the segment list. -/
def keepLastFilterEmpty : List String → List String
  | [] => []
  | [x] => [x]
  | x :: y :: rest =>
    if x = "" then keepLastFilterEmpty (y :: rest)
    else x :: keepLastFilterEmpty (y :: rest)

/-- CPython `urljoin`: filter empty strings out of `segments[1:-1]`. -/
def filterMiddleEmpties : List String → List String
  | [] => []
  | x :: rest => x :: keepLastFilterEmpty rest

/-- CPython `urljoin`'s resolution loop over path segments: `..` pops the
accumulator (ignoring underflow), `.` is dropped, anything else is
appended. -/
def resolveSegments (acc : List String) : List String → List String
  | [] => acc
  | seg :: rest =>
    if seg = ".." then resolveSegments acc.dropLast rest
    else if seg = "." then resolveSegments acc rest
    else resolveSegments (acc ++ [seg]) rest

/-- Model of `urllib.parse.urljoin` (CPython ≥ 3.6 algorithm). -/
def urljoin (base url : String) : String :=
  if base = "" then url
  else if url = "" then base
  else
    let b := urlsplitStr base
    let u := urlsplitStr url
    let scheme := if u.scheme = "" then b.scheme else u.scheme
    if scheme ≠ b.scheme ∨ ¬ uses_relative.contains scheme then url
    else if uses_netloc.contains scheme ∧ u.netloc ≠ "" then
      urlunsplit ⟨scheme, u.netloc, u.path, u.query, u.fragment⟩
    else
      let netloc := if uses_netloc.contains scheme then b.netloc else u.netloc
      if u.path = "" then
        urlunsplit ⟨scheme, netloc, b.path,
          (if u.query = "" then b.query else u.query), u.fragment⟩
      else
        let base_parts := pySplitSlash b.path
        let base_parts :=
          if base_parts.getLast?.getD "" ≠ "" then base_parts.dropLast else base_parts
        let segments :=
          if pyStartsWith u.path "/" then pySplitSlash u.path
          else filterMiddleEmpties (base_parts ++ pySplitSlash u.path)
        let resolved := resolveSegments [] segments
        let lastSeg := segments.getLast?.getD ""
        let resolved := if lastSeg = "." ∨ lastSeg = ".." then resolved ++ [""] else resolved
        let joined := joinWithSlash resolved
        urlunsplit ⟨scheme, netloc, (if joined = "" then "/" else joined), u.query, u.fragment⟩

/-! ## The script's pure helpers -/

/-- Source `normalize_directory_url` (lines 76–80): strip the fragment and
force a trailing `/`. -/
def normalize_directory_url (url : String) : String :=
  let stripped := urldefragStr url
  if ¬ pyEndsWith stripped "/" then stripped ++ "/" else stripped

/-- Source `is_same_origin` (lines 83–86). -/
def is_same_origin (url base : String) : Bool :=
  let parsed_url := urlsplitStr url
  let parsed_base := urlsplitStr base
  parsed_url.scheme == parsed_base.scheme && parsed_url.netloc == parsed_base.netloc

/-- Source `is_within_base_path` (lines 89–94). -/
def is_within_base_path (url base : String) : Bool :=
  let url_path := (urlsplitStr url).path
  let base_path := (urlsplitStr base).path
  let base_path := if ¬ pyEndsWith base_path "/" then base_path ++ "/" else base_path
  pyStartsWith url_path base_path

/-- The spec's `isInScope(url, root)` and the conjunction the crawler
checks at source line 212. -/
def inScope (url base : String) : Bool :=
  is_same_origin url base && is_within_base_path url base

/-- Source `should_skip_link` (lines 97–99). -/
def should_skip_link (href : String) : Bool :=
  let href_lower := pyLower href
  pyStartsWith href_lower "?" || pyStartsWith href_lower "#" ||
    pyStartsWith href_lower "javascript:" || pyStartsWith href_lower "mailto:"

/-- Result of `classify_link`; the source returns the strings `"skip"`,
`"pdf"` (the target-file class the spec calls `file`), `"dir"`, `"other"`. -/
inductive LinkClass where
  | skip
  | pdf
  | dir
  | other
deriving DecidableEq, Repr

/-- Source `classify_link` (lines 102–114). -/
def classify_link (href : String) : LinkClass :=
  let decoded := pyStrip (unquote href)
  if decoded = "" ∨ decoded = "." ∨ decoded = ".." then LinkClass.skip
  else if pyStartsWith decoded "../" then LinkClass.skip
  else if pyEndsWith (pyLower decoded) ".pdf" then LinkClass.pdf
  else if pyEndsWith decoded "/" then LinkClass.dir
  else if ¬ strContainsChar ((pySplitSlash decoded).getLast?.getD "") '.' then LinkClass.dir
  else LinkClass.other

/-- The crawl loop's classification pipeline for one href (source lines
206–215): rule 1 (`should_skip_link`) first, then `classify_link`. -/
def classifyPipeline (href : String) : LinkClass :=
  if should_skip_link href then LinkClass.skip else classify_link href

/-! ## The Link Extractor

`DirectoryListingParser` (source lines 26–39) overrides only
`handle_starttag` of the stdlib `html.parser.HTMLParser`, which delivers
one event per parsed start tag (tag name, attribute list; an attribute
value is `None` for a valueless attribute) in document order and, being
the stdlib's tolerant parser, never raises on malformed input.  The model
therefore takes the event stream as input: a list of
`(tag, attrs)` pairs. -/

/-- Python `dict(attrs).get(key)`: the value of the last binding of
`key`, flattening a stored `None` and a missing key into `none` as
`dict.get` does. -/
def dictGet (attrs : List (String × Option String)) (key : String) : Option String :=
  attrs.foldl (fun acc kv => if kv.1 = key then kv.2 else acc) none

/-- Source `DirectoryListingParser.handle_starttag` (lines 33–39) acting
on the accumulated `self.links`. -/
def handle_starttag (links : List String) (tag : String)
    (attrs : List (String × Option String)) : List String :=
  if pyLower tag ≠ "a" then links
  else
    match dictGet attrs "href" with
    | none => links
    | some href => if href ≠ "" then links ++ [href] else links

/-- The Link Extractor over a start-tag event stream: feed every event to
`handle_starttag`, starting from the empty `links` list. -/
def extractLinks (events : List (String × List (String × Option String))) : List String :=
  events.foldl (fun links e => handle_starttag links e.1 e.2) []

/-- Modelled from the spec (§4.1): the href an anchor event contributes
per the source's actual filter — anchor tag, with an href attribute whose
value is present and non-empty.  Used to state that `extractLinks` emits
exactly these, in order, duplicates preserved. -/
def anchorHref (e : String × List (String × Option String)) : Option String :=
  if pyLower e.1 = "a" then
    match dictGet e.2 "href" with
    | none => none
    | some href => if href ≠ "" then some href else none
  else none

/-! ## Local paths and the filesystem model -/

/-- Model of `pathlib.PurePosixPath(p).parts` for relative `p`: split on `/`,
dropping empty and `.` components (pathlib's normalization; `..` is
kept). -/
def posixParts (p : String) : List String :=
  (pySplitSlash p).filter (fun seg => seg ≠ "" ∧ seg ≠ ".")

/-- Model of `pathlib.PurePosixPath(p).name`: the final component, `""` when there
is none. -/
def posixName (p : String) : String :=
  (posixParts p).getLast?.getD ""

/-- Source `build_local_path` (lines 171–183).  A local path is its list
of segments below the filesystem root; `dest_root` is the `--dest`
directory as such a list, and `joinpath` is list append. -/
def build_local_path (url base : String) (dest_root : List String) : List String :=
  let parsed_url := urlsplitStr url
  let parsed_base := urlsplitStr base
  let base_path := parsed_base.path
  let base_path := if ¬ pyEndsWith base_path "/" then base_path ++ "/" else base_path
  let rel_path := parsed_url.path
  let rel_path := if pyStartsWith rel_path base_path then pyDrop rel_path base_path.length else rel_path
  let rel_path := pyLstripSlash rel_path
  let rel_path := if rel_path = "" then posixName parsed_url.path else rel_path
  dest_root ++ posixParts rel_path

/-- Modelled from the spec (§4.7), which says the remainder below the
root path "is percent-decoded segment-by-segment and joined onto
`destRoot`": identical to the source's `build_local_path` except that
every resulting segment is percent-decoded.  Used to compare the source
against the spec's words. -/
def specLocalPath (url base : String) (dest_root : List String) : List String :=
  let parsed_url := urlsplitStr url
  let parsed_base := urlsplitStr base
  let base_path := parsed_base.path
  let base_path := if ¬ pyEndsWith base_path "/" then base_path ++ "/" else base_path
  let rel_path := parsed_url.path
  let rel_path := if pyStartsWith rel_path base_path then pyDrop rel_path base_path.length else rel_path
  let rel_path := pyLstripSlash rel_path
  let rel_path := if rel_path = "" then posixName parsed_url.path else rel_path
  dest_root ++ (posixParts rel_path).map unquote

/-- The filesystem visible to the Downloader: a map from local paths to
file byte sizes.  Insertion shadows earlier entries, modelling overwrite. -/
abbrev Fs : Type := List (List String × Nat)

/-- Python `destination.exists()` / `destination.stat().st_size`. -/
def fsLookup (fs : Fs) (p : List String) : Option Nat :=
  match fs with
  | [] => none
  | q :: rest => if q.1 = p then some q.2 else fsLookup rest p

/-- Writing a file: the new entry shadows any earlier one. -/
def fsInsert (fs : Fs) (p : List String) (n : Nat) : Fs :=
  (p, n) :: fs

/-! ## The Downloader -/

/-- The spec's Download Outcome, plus the dry-run report (spec §4.5's
"would-be action is reported only"). -/
inductive Outcome where
  | skippedExists
  | dryRunPlanned
  | downloaded
  | sizeMismatchWarning
  | failed
deriving DecidableEq, Repr

/-- Result of one `download_file` call: the filesystem afterwards, the
reported outcome, and whether a GET of the file body was issued. -/
structure DLResult where
  fs : Fs
  outcome : Outcome
  fetchedBody : Bool
deriving Repr

/-- Source `download_file` (lines 130–168).  Here `bodies url = some n` means a
GET of `url` succeeds and writes `n` bytes; `none` models `urllib.error.URLError`
raised by `urlopen` (before the local file is opened, so the filesystem is
unchanged); the caller catches it (source line 233), reporting the
`failed` outcome. -/
def download_file (bodies : String → Option Nat) (url : String)
    (destination : List String) (dry_run : Bool) (expected_size : Option Nat)
    (fs : Fs) : DLResult :=
  let afterExistsCheck : DLResult :=
    if dry_run then ⟨fs, Outcome.dryRunPlanned, false⟩
    else
      match bodies url with
      | none => ⟨fs, Outcome.failed, true⟩
      | some downloaded_size =>
        let fs2 := fsInsert fs destination downloaded_size
        match expected_size with
        | some m =>
          if downloaded_size ≠ m then ⟨fs2, Outcome.sizeMismatchWarning, true⟩
          else ⟨fs2, Outcome.downloaded, true⟩
        | none => ⟨fs2, Outcome.downloaded, true⟩
  match fsLookup fs destination with
  | some local_size =>
    if expected_size = some local_size then ⟨fs, Outcome.skippedExists, false⟩
    else afterExistsCheck
  | none => afterExistsCheck

/-! ## The Crawler -/

/-- The crawler's run state.  `queue`, `visited` and `fs` are the Python
loop's data; `fetched` records each URL passed to `fetch_links` in order,
`dispatched` each URL passed to `download_file`, `outcomes` the reported
outcome per dispatch, and `gets` each URL whose file body was fetched —
the observable events the spec talks about. -/
structure CrawlState where
  queue : List String
  visited : List String
  fetched : List String
  dispatched : List String
  outcomes : List (String × Outcome)
  gets : List String
  fs : Fs
deriving Repr

/-- Source `fetch_links` seen through the network model: the listing graph is the
finite association list `pages`; a URL with no entry fails with
`URLError`. -/
def lookupPages (pages : List (String × List String)) (url : String) : Option (List String) :=
  match pages with
  | [] => none
  | p :: rest => if p.1 = url then some p.2 else lookupPages rest url

/-- The body of `for href in links:` (source lines 206–234) for one href. -/
def processLink (heads bodies : String → Option Nat) (base_url : String)
    (dry_run : Bool) (dest_root : List String) (current : String)
    (st : CrawlState) (href : String) : CrawlState :=
  if should_skip_link href then st
  else
    let absolute := urldefragStr (urljoin current href)
    if is_same_origin absolute base_url && is_within_base_path absolute base_url then
      match classify_link href with
      | LinkClass.dir => { st with queue := st.queue ++ [absolute] }
      | LinkClass.pdf =>
        let local_path := build_local_path absolute base_url dest_root
        let remote_size := heads absolute
        let r := download_file bodies absolute local_path dry_run remote_size st.fs
        { st with
            dispatched := st.dispatched ++ [absolute]
            outcomes := st.outcomes ++ [(absolute, r.outcome)]
            gets := st.gets ++ (if r.fetchedBody then [absolute] else [])
            fs := r.fs }
      | _ => st
    else st

/-- One iteration of `while queue:` (source lines 191–234): pop from the
tail, normalize, drop if visited, else mark visited, fetch the popped URL's
links (a failed fetch abandons the directory), and process each link. -/
def crawlStep (pages : List (String × List String)) (heads bodies : String → Option Nat)
    (base_url : String) (dry_run : Bool) (dest_root : List String)
    (st : CrawlState) : CrawlState :=
  match st.queue.getLast? with
  | none => st
  | some current =>
    let st1 : CrawlState := { st with queue := st.queue.dropLast }
    let normalized := normalize_directory_url current
    if normalized ∈ st1.visited then st1
    else
      let st2 : CrawlState :=
        { st1 with visited := normalized :: st1.visited, fetched := st1.fetched ++ [current] }
      match lookupPages pages current with
      | none => st2
      | some links => links.foldl (processLink heads bodies base_url dry_run dest_root current) st2

/-- The `while queue:` loop on fuel: one unit per iteration, so
`crawlFuel … k st` is the state after `min k n` iterations, where `n` is
the number of iterations the loop actually runs from `st`. -/
def crawlFuel (pages : List (String × List String)) (heads bodies : String → Option Nat)
    (base_url : String) (dry_run : Bool) (dest_root : List String) :
    Nat → CrawlState → CrawlState
  | 0, st => st
  | fuel + 1, st =>
    if st.queue = [] then st
    else crawlFuel pages heads bodies base_url dry_run dest_root fuel
      (crawlStep pages heads bodies base_url dry_run dest_root st)

/-- The crawler's state just before the loop (source lines 187–189): the
root normalized and enqueued, everything else empty, the destination
directory holding `fs`. -/
def initState (base_url : String) (fs : Fs) : CrawlState :=
  { queue := [normalize_directory_url base_url], visited := [], fetched := [],
    dispatched := [], outcomes := [], gets := [], fs := fs }

/-- Source `crawl` (lines 186–234), run for `fuel` loop iterations. -/
def crawl (pages : List (String × List String)) (heads bodies : String → Option Nat)
    (base_url : String) (dest_root : List String) (dry_run : Bool)
    (fuel : Nat) (fs : Fs) : CrawlState :=
  let base := normalize_directory_url base_url
  crawlFuel pages heads bodies base dry_run dest_root fuel (initState base_url fs)

/-! ## Proof-side characterizations

Closed forms of the per-link effect of the loop body, and the finite
universes used by the termination argument.  These repeat the guard
structure of `processLink` so that each run-level proof can reason about
one link's contribution to one state component at a time. -/

/-- The no-skip branch of `download_file` (everything after the
exists-and-size check): the dry-run early return, else the GET and the
size comparison.  Named so the Downloader lemmas can case on it without
re-stating the branch. -/
def proceedResult (bodies : String → Option Nat) (url : String) (dest : List String)
    (dry_run : Bool) (expected_size : Option Nat) (fs : Fs) : DLResult :=
  if dry_run then ⟨fs, Outcome.dryRunPlanned, false⟩
  else
    match bodies url with
    | none => ⟨fs, Outcome.failed, true⟩
    | some downloaded_size =>
      match expected_size with
      | some m =>
        if downloaded_size ≠ m then
          ⟨fsInsert fs dest downloaded_size, Outcome.sizeMismatchWarning, true⟩
        else ⟨fsInsert fs dest downloaded_size, Outcome.downloaded, true⟩
      | none => ⟨fsInsert fs dest downloaded_size, Outcome.downloaded, true⟩

/-- The directory URLs one href appends to the queue (none or one). -/
def linkQueueDelta (base_url current href : String) : List String :=
  if should_skip_link href then []
  else
    let absolute := urldefragStr (urljoin current href)
    if is_same_origin absolute base_url && is_within_base_path absolute base_url then
      match classify_link href with
      | LinkClass.dir => [absolute]
      | _ => []
    else []

/-- The file URLs one href dispatches to the Downloader (none or one). -/
def linkDispatchDelta (base_url current href : String) : List String :=
  if should_skip_link href then []
  else
    let absolute := urldefragStr (urljoin current href)
    if is_same_origin absolute base_url && is_within_base_path absolute base_url then
      match classify_link href with
      | LinkClass.pdf => [absolute]
      | _ => []
    else []

/-- Every URL any page of the finite listing graph can put into the
queue: the defragged join of each page's URL with each of its hrefs. -/
def allJoins (pages : List (String × List String)) : List String :=
  pages.flatMap (fun p => p.2.map (fun href => urldefragStr (urljoin p.1 href)))

/-- The finite universe of queue entries reachable in a crawl rooted at
`base`. -/
def queueUniverse (pages : List (String × List String)) (base : String) : List String :=
  base :: allJoins pages

/-- The finite universe of possible Visited-Set entries. -/
def visitedUniverse (pages : List (String × List String)) (base : String) : List String :=
  (queueUniverse pages base).map normalize_directory_url

/-- The largest number of links on any one page of the graph. -/
def maxLinks (pages : List (String × List String)) : Nat :=
  (pages.map (fun p => p.2.length)).foldr Nat.max 0

/-- Loop variant for termination: queue entries still to pop, plus room
left in the Visited Set scaled by the most links one pop can enqueue. -/
def crawlMeasure (pages : List (String × List String)) (base : String)
    (st : CrawlState) : Nat :=
  st.queue.length +
    ((visitedUniverse pages base).length - st.visited.length) * (maxLinks pages + 1)

/-- The invariant backing termination: the Visited Set never holds
duplicates and stays inside its finite universe, and the queue stays
inside its finite universe. -/
def CrawlInv (pages : List (String × List String)) (base : String)
    (st : CrawlState) : Prop :=
  st.visited.Nodup ∧
  (∀ v ∈ st.visited, v ∈ visitedUniverse pages base) ∧
  (∀ u ∈ st.queue, u ∈ queueUniverse pages base)

/-- The scope invariant: every queue entry and every dispatched URL is in
scope of the (normalized) root. -/
def ScopeInv (base_url : String) (st : CrawlState) : Prop :=
  (∀ u ∈ st.queue, inScope u base_url = true) ∧
  (∀ u ∈ st.dispatched, inScope u base_url = true)

/-- The at-most-once-fetch invariant: no two fetches share a normalized
URL, and every fetch was recorded in the Visited Set. -/
def FetchInv (st : CrawlState) : Prop :=
  (st.fetched.map normalize_directory_url).Nodup ∧
  (∀ u ∈ st.fetched, normalize_directory_url u ∈ st.visited)

/-! ## Lemmas: the effect of one href -/

theorem processLink_queue_eq (heads bodies : String → Option Nat) (base_url : String)
    (dry_run : Bool) (dest_root : List String) (current : String)
    (st : CrawlState) (href : String) :
    (processLink heads bodies base_url dry_run dest_root current st href).queue
      = st.queue ++ linkQueueDelta base_url current href := by
  unfold processLink linkQueueDelta
  by_cases hs : should_skip_link href = true
  · simp [hs]
  · cases hcl : classify_link href <;>
      by_cases hg : (is_same_origin (urldefragStr (urljoin current href)) base_url
        && is_within_base_path (urldefragStr (urljoin current href)) base_url) = true <;>
      simp [hs, hcl, hg]

theorem processLink_dispatched_eq (heads bodies : String → Option Nat) (base_url : String)
    (dry_run : Bool) (dest_root : List String) (current : String)
    (st : CrawlState) (href : String) :
    (processLink heads bodies base_url dry_run dest_root current st href).dispatched
      = st.dispatched ++ linkDispatchDelta base_url current href := by
  unfold processLink linkDispatchDelta
  by_cases hs : should_skip_link href = true
  · simp [hs]
  · cases hcl : classify_link href <;>
      by_cases hg : (is_same_origin (urldefragStr (urljoin current href)) base_url
        && is_within_base_path (urldefragStr (urljoin current href)) base_url) = true <;>
      simp [hs, hcl, hg]

theorem processLink_visited_eq (heads bodies : String → Option Nat) (base_url : String)
    (dry_run : Bool) (dest_root : List String) (current : String)
    (st : CrawlState) (href : String) :
    (processLink heads bodies base_url dry_run dest_root current st href).visited
      = st.visited := by
  unfold processLink
  by_cases hs : should_skip_link href = true
  · simp [hs]
  · cases hcl : classify_link href <;>
      by_cases hg : (is_same_origin (urldefragStr (urljoin current href)) base_url
        && is_within_base_path (urldefragStr (urljoin current href)) base_url) = true <;>
      simp [hs, hcl, hg]

theorem processLink_fetched_eq (heads bodies : String → Option Nat) (base_url : String)
    (dry_run : Bool) (dest_root : List String) (current : String)
    (st : CrawlState) (href : String) :
    (processLink heads bodies base_url dry_run dest_root current st href).fetched
      = st.fetched := by
  unfold processLink
  by_cases hs : should_skip_link href = true
  · simp [hs]
  · cases hcl : classify_link href <;>
      by_cases hg : (is_same_origin (urldefragStr (urljoin current href)) base_url
        && is_within_base_path (urldefragStr (urljoin current href)) base_url) = true <;>
      simp [hs, hcl, hg]

theorem foldl_processLink_queue (heads bodies : String → Option Nat) (base_url : String)
    (dry_run : Bool) (dest_root : List String) (current : String) :
    ∀ (links : List String) (st : CrawlState),
    (links.foldl (processLink heads bodies base_url dry_run dest_root current) st).queue
      = st.queue ++ links.flatMap (linkQueueDelta base_url current) := by
  intro links
  induction links with
  | nil => intro st; simp
  | cons l ls ih =>
    intro st
    simp only [List.foldl_cons, List.flatMap_cons]
    rw [ih, processLink_queue_eq, List.append_assoc]

theorem foldl_processLink_dispatched (heads bodies : String → Option Nat) (base_url : String)
    (dry_run : Bool) (dest_root : List String) (current : String) :
    ∀ (links : List String) (st : CrawlState),
    (links.foldl (processLink heads bodies base_url dry_run dest_root current) st).dispatched
      = st.dispatched ++ links.flatMap (linkDispatchDelta base_url current) := by
  intro links
  induction links with
  | nil => intro st; simp
  | cons l ls ih =>
    intro st
    simp only [List.foldl_cons, List.flatMap_cons]
    rw [ih, processLink_dispatched_eq, List.append_assoc]

theorem foldl_processLink_visited (heads bodies : String → Option Nat) (base_url : String)
    (dry_run : Bool) (dest_root : List String) (current : String) :
    ∀ (links : List String) (st : CrawlState),
    (links.foldl (processLink heads bodies base_url dry_run dest_root current) st).visited
      = st.visited := by
  intro links
  induction links with
  | nil => intro st; rfl
  | cons l ls ih =>
    intro st
    simp only [List.foldl_cons]
    rw [ih, processLink_visited_eq]

theorem foldl_processLink_fetched (heads bodies : String → Option Nat) (base_url : String)
    (dry_run : Bool) (dest_root : List String) (current : String) :
    ∀ (links : List String) (st : CrawlState),
    (links.foldl (processLink heads bodies base_url dry_run dest_root current) st).fetched
      = st.fetched := by
  intro links
  induction links with
  | nil => intro st; rfl
  | cons l ls ih =>
    intro st
    simp only [List.foldl_cons]
    rw [ih, processLink_fetched_eq]

/-! ## Lemmas: percent-free strings -/

theorem unquoteChars_of_not_mem : ∀ (l : List Char), '%' ∉ l → unquoteChars l = l := by
  intro l
  induction l with
  | nil => intro _; rfl
  | cons c rest ih =>
    intro h
    have hc : c ≠ '%' := fun hcc => h (hcc ▸ List.mem_cons_self c rest)
    have hr : '%' ∉ rest := fun hrr => h (List.mem_cons_of_mem c hrr)
    rw [unquoteChars.eq_def]
    split
    · rename_i heq
      exact absurd heq (List.cons_ne_nil c rest)
    · rename_i heq
      injection heq with h1 _
      exact absurd h1 hc
    · rename_i heq
      injection heq with h1 h2
      rw [← h1, ← h2, ih hr]

theorem unquote_of_not_contains (s : String) (h : strContainsChar s '%' = false) :
    unquote s = s := by
  have hm : '%' ∉ s.data := by
    intro hmem
    have : s.data.contains '%' = true := List.elem_eq_true_of_mem hmem
    rw [strContainsChar] at h
    rw [h] at this
    exact Bool.false_ne_true this
  show String.mk (unquoteChars s.data) = s
  rw [unquoteChars_of_not_mem s.data hm]

theorem splitOnChar_chars (sep : Char) :
    ∀ (l : List Char), ∀ g ∈ splitOnChar sep l, ∀ c ∈ g, c ∈ l := by
  intro l
  induction l with
  | nil =>
    intro g hg c hc
    simp [splitOnChar] at hg
    subst hg
    exact absurd hc (List.not_mem_nil c)
  | cons c0 rest ih =>
    intro g hg c hc
    rw [splitOnChar.eq_def] at hg
    simp only at hg
    by_cases h0 : c0 = sep
    · rw [if_pos h0] at hg
      rcases List.mem_cons.mp hg with hg | hg
      · subst hg; exact absurd hc (List.not_mem_nil c)
      · exact List.mem_cons_of_mem c0 (ih g hg c hc)
    · rw [if_neg h0] at hg
      rcases hsplit : splitOnChar sep rest with _ | ⟨g0, gs⟩
      · rw [hsplit] at hg
        rcases List.mem_cons.mp hg with hg | hg
        · subst hg
          rcases List.mem_cons.mp hc with hc | hc
          · exact hc ▸ List.mem_cons_self c0 rest
          · exact absurd hc (List.not_mem_nil c)
        · exact absurd hg (List.not_mem_nil g)
      · rw [hsplit] at hg
        rcases List.mem_cons.mp hg with hg | hg
        · subst hg
          rcases List.mem_cons.mp hc with hc | hc
          · exact hc ▸ List.mem_cons_self c0 rest
          · exact List.mem_cons_of_mem c0 (ih g0 (hsplit ▸ List.mem_cons_self g0 gs) c hc)
        · exact List.mem_cons_of_mem c0 (ih g (hsplit ▸ List.mem_cons_of_mem g0 hg) c hc)

theorem pySplitSlash_chars (s : String) :
    ∀ seg ∈ pySplitSlash s, ∀ c ∈ seg.data, c ∈ s.data := by
  intro seg hseg c hc
  rcases List.mem_map.mp hseg with ⟨g, hg, hmk⟩
  subst hmk
  exact splitOnChar_chars '/' s.data g hg c hc

theorem posixParts_chars (p : String) :
    ∀ seg ∈ posixParts p, ∀ c ∈ seg.data, c ∈ p.data := by
  intro seg hseg c hc
  exact pySplitSlash_chars p seg (List.mem_of_mem_filter hseg) c hc

theorem posixName_chars (p : String) : ∀ c ∈ (posixName p).data, c ∈ p.data := by
  intro c hc
  unfold posixName at hc
  rcases hl : (posixParts p).getLast? with _ | seg
  · rw [hl] at hc
    exact absurd hc (List.not_mem_nil c)
  · rw [hl] at hc
    have hseg : seg ∈ posixParts p := by
      rcases List.mem_getLast?_eq_getLast (l := posixParts p) (x := seg)
        (by rw [hl]; exact Option.mem_def.mpr rfl) with ⟨hne, heq⟩
      rw [heq]
      exact List.getLast_mem hne
    exact posixParts_chars p seg hseg c hc

/-! ## Claim C5: classification table -/

/-- C5: applying the crawl loop's pipeline — `should_skip_link` (spec
rule 1) then `classify_link` (rules 2–6, with percent-decoding, stripping
and case-insensitive `.pdf` matching) — to the spec's table gives:
`"report.pdf"` → file (the source's `pdf` class); `"sub/"` → dir; `".."`,
`"../x"`, `"?C=N"`, `"#frag"`, `"javascript:x"`, `"mailto:a@b"` → skip;
`"readme"` → dir; `"image.png"` → other. -/
theorem c5_classification_table :
    classifyPipeline "report.pdf" = LinkClass.pdf ∧
    classifyPipeline "sub/" = LinkClass.dir ∧
    classifyPipeline ".." = LinkClass.skip ∧
    classifyPipeline "../x" = LinkClass.skip ∧
    classifyPipeline "?C=N" = LinkClass.skip ∧
    classifyPipeline "#frag" = LinkClass.skip ∧
    classifyPipeline "javascript:x" = LinkClass.skip ∧
    classifyPipeline "mailto:a@b" = LinkClass.skip ∧
    classifyPipeline "readme" = LinkClass.dir ∧
    classifyPipeline "image.png" = LinkClass.other := by
  decide

/-! ## Claim C6: local path derivation -/

set_option maxHeartbeats 2000000 in
/-- C6 counterexample: the source's `build_local_path` does not
percent-decode.  For root `https://h/images/` and file URL
`https://h/images/a%20b.pdf` the source keeps the raw segment
`a%20b.pdf`, while the claim's percent-decoding mapping (`specLocalPath`,
the spec's words) yields `a b.pdf`. -/
theorem c6_counterexample :
    build_local_path "https://h/images/a%20b.pdf" "https://h/images/" ["out"]
      = ["out", "a%20b.pdf"] ∧
    specLocalPath "https://h/images/a%20b.pdf" "https://h/images/" ["out"]
      = ["out", "a b.pdf"] ∧
    build_local_path "https://h/images/a%20b.pdf" "https://h/images/" ["out"]
      ≠ specLocalPath "https://h/images/a%20b.pdf" "https://h/images/" ["out"] := by
  decide

set_option maxHeartbeats 2000000 in
/-- C6 (amended): `build_local_path` strips the root's path prefix,
removes leading slashes, splits into segments and joins them onto the
destination root without percent-decoding, falling back to the URL's
final path segment when the remainder is empty: the spec's example
`/out/2020/report.pdf` holds, an encoded segment stays encoded, the
empty-remainder fallback yields the root's final segment, and on any URL
whose path is percent-free the mapping agrees with the spec's
(percent-decoding) description. -/
theorem c6_path_derivation :
    build_local_path "https://h/images/2020/report.pdf" "https://h/images/" ["out"]
      = ["out", "2020", "report.pdf"] ∧
    build_local_path "https://h/images/a%20b.pdf" "https://h/images/" ["out"]
      = ["out", "a%20b.pdf"] ∧
    build_local_path "https://h/images/" "https://h/images/" ["out"]
      = ["out", "images"] ∧
    (∀ (url base : String) (dest_root : List String),
      strContainsChar (urlsplitStr url).path '%' = false →
      build_local_path url base dest_root = specLocalPath url base dest_root) := by
  refine ⟨by decide, by decide, by decide, ?_⟩
  intro url base dest_root hfree
  unfold build_local_path specLocalPath
  simp only
  have hnoPct : ∀ c ∈ (urlsplitStr url).path.data, c ≠ '%' := by
    intro c hc hcp
    subst hcp
    have : (urlsplitStr url).path.data.contains '%' = true := List.elem_eq_true_of_mem hc
    rw [strContainsChar] at hfree
    rw [hfree] at this
    exact Bool.false_ne_true this
  congr 1
  set bp := (if ¬ pyEndsWith (urlsplitStr base).path "/" = true
      then (urlsplitStr base).path ++ "/" else (urlsplitStr base).path) with hbp
  set rel1 := (if pyStartsWith (urlsplitStr url).path bp = true
      then pyDrop (urlsplitStr url).path bp.length else (urlsplitStr url).path) with hrel1
  have hrel1chars : ∀ c ∈ rel1.data, c ∈ (urlsplitStr url).path.data := by
    intro c hc
    rw [hrel1] at hc
    by_cases hsw : pyStartsWith (urlsplitStr url).path bp = true
    · rw [if_pos hsw] at hc
      exact List.drop_subset _ _ hc
    · rw [if_neg hsw] at hc
      exact hc
  set rel2 := pyLstripSlash rel1 with hrel2
  have hrel2chars : ∀ c ∈ rel2.data, c ∈ (urlsplitStr url).path.data := by
    intro c hc
    rw [hrel2] at hc
    exact hrel1chars c ((List.dropWhile_sublist _).subset hc)
  set rel3 := (if rel2 = "" then posixName (urlsplitStr url).path else rel2) with hrel3
  have hrel3chars : ∀ c ∈ rel3.data, c ∈ (urlsplitStr url).path.data := by
    intro c hc
    rw [hrel3] at hc
    by_cases he : rel2 = ""
    · rw [if_pos he] at hc
      exact posixName_chars _ c hc
    · rw [if_neg he] at hc
      exact hrel2chars c hc
  have : ∀ seg ∈ posixParts rel3, unquote seg = seg := by
    intro seg hseg
    apply unquote_of_not_contains
    rw [strContainsChar]
    cases hb : seg.data.contains '%' with
    | false => rfl
    | true =>
      have hmem : '%' ∈ seg.data := List.mem_of_elem_eq_true hb
      exact absurd rfl (hnoPct '%' (hrel3chars '%' (posixParts_chars rel3 seg hseg '%' hmem)))
  calc posixParts rel3 = (posixParts rel3).map id := (List.map_id _).symm
    _ = (posixParts rel3).map unquote := List.map_congr_left (fun seg hseg => (this seg hseg).symm)

/-! ## Claim C9: the Link Extractor -/

theorem handle_starttag_eq (links : List String) (tag : String)
    (attrs : List (String × Option String)) :
    handle_starttag links tag attrs
      = links ++ (match anchorHref (tag, attrs) with | some h => [h] | none => []) := by
  unfold handle_starttag anchorHref
  by_cases ht : pyLower tag = "a"
  · simp only [ht, if_pos]
    rcases hdg : dictGet attrs "href" with _ | href
    · simp
    · by_cases he : href = ""
      · simp [he]
      · simp [he]
  · simp [ht]

theorem extractLinks_aux (events : List (String × List (String × Option String))) :
    ∀ acc, events.foldl (fun links e => handle_starttag links e.1 e.2) acc
      = acc ++ events.filterMap anchorHref := by
  induction events with
  | nil => intro acc; simp [List.filterMap]
  | cons e rest ih =>
    intro acc
    obtain ⟨t, a⟩ := e
    simp only [List.foldl_cons, List.filterMap_cons]
    rw [ih, handle_starttag_eq]
    rcases h : anchorHref (t, a) with _ | href <;> simp

/-- C9 counterexample: an anchor carrying an `href` attribute whose value
is the empty string is dropped (`if href:` is false on `""`), so the
extractor does not return one string per anchor that has an `href`
attribute. -/
theorem c9_counterexample :
    extractLinks [("a", [("href", some "")])] = [] ∧
    ([] : List String) ≠ [""] := by
  constructor
  · rfl
  · decide

/-- C9 (amended): over any start-tag event stream, the extractor returns
exactly the `href` values of anchor elements whose `href` attribute is
present with a non-empty value, in document order with duplicates
preserved (`filterMap` of the per-anchor selector); anchors without an
`href` attribute, with a valueless `href`, or with an empty `href` value
are skipped.  The function is total, so extraction itself never raises;
tolerance of malformed HTML is the stdlib parser's own guarantee. -/
theorem c9_extractor (events : List (String × List (String × Option String))) :
    extractLinks events = events.filterMap anchorHref := by
  unfold extractLinks
  exact extractLinks_aux events []

/-! ## Lemmas: the Downloader -/

/-- When the local file exists with the expected size, `download_file`
skips: nothing fetched, nothing written. -/
theorem download_file_skip_eq (bodies : String → Option Nat) (url : String)
    (dest : List String) (dry : Bool) (expected : Option Nat) (fs : Fs) (s : Nat)
    (h : fsLookup fs dest = some s) (he : expected = some s) :
    download_file bodies url dest dry expected fs = ⟨fs, Outcome.skippedExists, false⟩ := by
  unfold download_file
  rw [h]
  dsimp only
  rw [if_pos he]

/-- When the skip condition fails, `download_file` proceeds to the
dry-run check and (if not a dry run) the fetch. -/
theorem download_file_no_skip_eq (bodies : String → Option Nat) (url : String)
    (dest : List String) (dry : Bool) (expected : Option Nat) (fs : Fs)
    (h : ∀ s, fsLookup fs dest = some s → expected ≠ some s) :
    download_file bodies url dest dry expected fs
      = proceedResult bodies url dest dry expected fs := by
  unfold download_file proceedResult
  rcases hl : fsLookup fs dest with _ | s
  · rfl
  · dsimp only
    rw [if_neg (h s hl)]

/-- In a dry run no file body is fetched and the filesystem is untouched. -/
theorem download_file_dry (bodies : String → Option Nat) (url : String)
    (dest : List String) (expected : Option Nat) (fs : Fs) :
    (download_file bodies url dest true expected fs).fs = fs ∧
    (download_file bodies url dest true expected fs).fetchedBody = false ∧
    ((download_file bodies url dest true expected fs).outcome = Outcome.skippedExists ∨
      (download_file bodies url dest true expected fs).outcome = Outcome.dryRunPlanned) := by
  unfold download_file
  rcases hl : fsLookup fs dest with _ | s
  · exact ⟨rfl, rfl, Or.inr rfl⟩
  · dsimp only
    by_cases he : expected = some s
    · rw [if_pos he]
      exact ⟨rfl, rfl, Or.inl rfl⟩
    · rw [if_neg he]
      exact ⟨rfl, rfl, Or.inr rfl⟩

/-- The proceed-branch result never reports `skippedExists`. -/
theorem download_file_no_skip_outcome (bodies : String → Option Nat) (url : String)
    (dest : List String) (dry : Bool) (expected : Option Nat) (fs : Fs)
    (h : ∀ s, fsLookup fs dest = some s → expected ≠ some s) :
    (download_file bodies url dest dry expected fs).outcome ≠ Outcome.skippedExists := by
  rw [download_file_no_skip_eq bodies url dest dry expected fs h]
  unfold proceedResult
  rcases dry with _ | _
  · rcases hb : bodies url with _ | n
    · simp [hb]
    · rcases hex : expected with _ | m
      · simp [hb, hex]
      · by_cases hnm : n ≠ m <;> simp [hb, hex, hnm]
  · simp

/-! ## Claim C3: the Downloader's decision table -/

/-- C3: `download_file` reports `skippedExists` exactly when the local
file exists, the expected size is known and the sizes agree (and then
leaves the filesystem untouched); with the file present but the size
unknown or different it re-fetches and overwrites; with no local file it
fetches and saves; and a completed fetch whose written byte count differs
from a known expected size reports `sizeMismatchWarning`, keeps the
downloaded bytes, and is not the fatal `failed` outcome (no outcome stops
the crawl: the loop continues unconditionally after each dispatch). -/
theorem c3_download_decision_table :
    (∀ (bodies : String → Option Nat) (url : String) (dest : List String)
        (dry : Bool) (expected : Option Nat) (fs : Fs),
      ((download_file bodies url dest dry expected fs).outcome = Outcome.skippedExists
          ↔ ∃ s, fsLookup fs dest = some s ∧ expected = some s) ∧
      ((download_file bodies url dest dry expected fs).outcome = Outcome.skippedExists →
        (download_file bodies url dest dry expected fs).fs = fs)) ∧
    (∀ (bodies : String → Option Nat) (url : String) (dest : List String)
        (expected : Option Nat) (fs : Fs) (s n : Nat),
      fsLookup fs dest = some s → expected ≠ some s → bodies url = some n →
      (download_file bodies url dest false expected fs).fs = fsInsert fs dest n) ∧
    (∀ (bodies : String → Option Nat) (url : String) (dest : List String)
        (expected : Option Nat) (fs : Fs) (n : Nat),
      fsLookup fs dest = none → bodies url = some n →
      (download_file bodies url dest false expected fs).fs = fsInsert fs dest n) ∧
    (∀ (bodies : String → Option Nat) (url : String) (dest : List String)
        (fs : Fs) (m n : Nat),
      fsLookup fs dest ≠ some m → bodies url = some n → n ≠ m →
      (download_file bodies url dest false (some m) fs).outcome = Outcome.sizeMismatchWarning ∧
      fsLookup (download_file bodies url dest false (some m) fs).fs dest = some n ∧
      (download_file bodies url dest false (some m) fs).outcome ≠ Outcome.failed) := by
  have hno : ∀ (expected : Option Nat) (fs : Fs) (dest : List String),
      (¬ ∃ s, fsLookup fs dest = some s ∧ expected = some s) →
      ∀ s, fsLookup fs dest = some s → expected ≠ some s := by
    intro expected fs dest hne s hs he
    exact hne ⟨s, hs, he⟩
  refine ⟨?_, ?_, ?_, ?_⟩
  · intro bodies url dest dry expected fs
    by_cases hc : ∃ s, fsLookup fs dest = some s ∧ expected = some s
    · rcases hc with ⟨s, hs, he⟩
      rw [download_file_skip_eq bodies url dest dry expected fs s hs he]
      exact ⟨⟨fun _ => ⟨s, hs, he⟩, fun _ => rfl⟩, fun _ => rfl⟩
    · constructor
      · constructor
        · intro hout
          exact absurd hout (download_file_no_skip_outcome bodies url dest dry expected fs
            (hno expected fs dest hc))
        · intro hex
          exact absurd hex hc
      · intro hout
        exact absurd hout (download_file_no_skip_outcome bodies url dest dry expected fs
          (hno expected fs dest hc))
  · intro bodies url dest expected fs s n hfs he hb
    have h : ∀ t, fsLookup fs dest = some t → expected ≠ some t := by
      intro t ht
      rw [hfs] at ht
      injection ht with ht
      rw [← ht]
      exact he
    rw [download_file_no_skip_eq bodies url dest false expected fs h]
    unfold proceedResult
    rcases hex : expected with _ | m
    · simp [hb]
    · by_cases hnm : n ≠ m <;> simp [hb, hnm]
  · intro bodies url dest expected fs n hfs hb
    have h : ∀ t, fsLookup fs dest = some t → expected ≠ some t := by
      intro t ht
      rw [hfs] at ht
      exact Option.noConfusion ht
    rw [download_file_no_skip_eq bodies url dest false expected fs h]
    unfold proceedResult
    rcases hex : expected with _ | m
    · simp [hb]
    · by_cases hnm : n ≠ m <;> simp [hb, hnm]
  · intro bodies url dest fs m n hfs hb hnm
    have h : ∀ t, fsLookup fs dest = some t → (some m : Option Nat) ≠ some t := by
      intro t ht hc
      injection hc with hc
      rw [← hc] at ht
      exact hfs ht
    rw [download_file_no_skip_eq bodies url dest false (some m) fs h]
    unfold proceedResult
    simp only [Bool.false_eq_true, if_false, hb]
    rw [if_pos hnm]
    refine ⟨rfl, ?_, ?_⟩
    · show fsLookup (fsInsert fs dest n) dest = some n
      unfold fsInsert fsLookup
      rw [if_pos rfl]
    · intro hc
      exact Outcome.noConfusion hc

/-- C3 witness (spec §8's size-mismatch scenario): no local file, the
server reports 200 bytes but the GET writes 150: the outcome is the
warning, the 150-byte file is kept, and the outcome is not `failed`. -/
theorem c3_download_decision_table_witness :
    (fsLookup ([] : Fs) ["f.pdf"] ≠ some 200 ∧
      (fun _ => some 150 : String → Option Nat) "u" = some 150 ∧ (150 : Nat) ≠ 200) ∧
    ((download_file (fun _ => some 150) "u" ["f.pdf"] false (some 200) []).outcome
        = Outcome.sizeMismatchWarning ∧
      fsLookup (download_file (fun _ => some 150) "u" ["f.pdf"] false (some 200) []).fs
        ["f.pdf"] = some 150 ∧
      (download_file (fun _ => some 150) "u" ["f.pdf"] false (some 200) []).outcome
        ≠ Outcome.failed) :=
  ⟨⟨by decide, rfl, by decide⟩,
    c3_download_decision_table.2.2.2 (fun _ => some 150) "u" ["f.pdf"] [] 200 150
      (by decide) rfl (by decide)⟩

/-! ## Lemmas: one crawl-loop iteration -/

theorem crawlStep_empty (pages : List (String × List String))
    (heads bodies : String → Option Nat) (base_url : String) (dry_run : Bool)
    (dest_root : List String) (st : CrawlState) (h : st.queue = []) :
    crawlStep pages heads bodies base_url dry_run dest_root st = st := by
  unfold crawlStep
  rw [h]
  rfl

theorem crawlStep_visited_case (pages : List (String × List String))
    (heads bodies : String → Option Nat) (base_url : String) (dry_run : Bool)
    (dest_root : List String) (st : CrawlState) (current : String)
    (hq : st.queue.getLast? = some current)
    (hv : normalize_directory_url current ∈ st.visited) :
    crawlStep pages heads bodies base_url dry_run dest_root st
      = { st with queue := st.queue.dropLast } := by
  unfold crawlStep
  rw [hq]
  dsimp only
  rw [if_pos hv]

theorem crawlStep_fresh_none (pages : List (String × List String))
    (heads bodies : String → Option Nat) (base_url : String) (dry_run : Bool)
    (dest_root : List String) (st : CrawlState) (current : String)
    (hq : st.queue.getLast? = some current)
    (hv : normalize_directory_url current ∉ st.visited)
    (hp : lookupPages pages current = none) :
    crawlStep pages heads bodies base_url dry_run dest_root st
      = { st with queue := st.queue.dropLast,
                  visited := normalize_directory_url current :: st.visited,
                  fetched := st.fetched ++ [current] } := by
  unfold crawlStep
  rw [hq]
  dsimp only
  rw [if_neg hv, hp]

theorem crawlStep_fresh_some (pages : List (String × List String))
    (heads bodies : String → Option Nat) (base_url : String) (dry_run : Bool)
    (dest_root : List String) (st : CrawlState) (current : String)
    (links : List String)
    (hq : st.queue.getLast? = some current)
    (hv : normalize_directory_url current ∉ st.visited)
    (hp : lookupPages pages current = some links) :
    crawlStep pages heads bodies base_url dry_run dest_root st
      = links.foldl (processLink heads bodies base_url dry_run dest_root current)
          { st with queue := st.queue.dropLast,
                    visited := normalize_directory_url current :: st.visited,
                    fetched := st.fetched ++ [current] } := by
  unfold crawlStep
  rw [hq]
  dsimp only
  rw [if_neg hv, hp]

/-! ## Lemmas: the fuelled loop -/

theorem crawlFuel_zero (pages : List (String × List String))
    (heads bodies : String → Option Nat) (base_url : String) (dry_run : Bool)
    (dest_root : List String) (st : CrawlState) :
    crawlFuel pages heads bodies base_url dry_run dest_root 0 st = st := rfl

theorem crawlFuel_succ (pages : List (String × List String))
    (heads bodies : String → Option Nat) (base_url : String) (dry_run : Bool)
    (dest_root : List String) (st : CrawlState) (n : Nat) (h : st.queue ≠ []) :
    crawlFuel pages heads bodies base_url dry_run dest_root (n + 1) st
      = crawlFuel pages heads bodies base_url dry_run dest_root n
          (crawlStep pages heads bodies base_url dry_run dest_root st) := by
  conv_lhs => rw [crawlFuel]
  rw [if_neg h]

theorem crawlFuel_empty (pages : List (String × List String))
    (heads bodies : String → Option Nat) (base_url : String) (dry_run : Bool)
    (dest_root : List String) (st : CrawlState) (h : st.queue = []) :
    ∀ n, crawlFuel pages heads bodies base_url dry_run dest_root n st = st
  | 0 => rfl
  | n + 1 => by
    unfold crawlFuel
    rw [if_pos h]

theorem crawlFuel_add (pages : List (String × List String))
    (heads bodies : String → Option Nat) (base_url : String) (dry_run : Bool)
    (dest_root : List String) :
    ∀ (a b : Nat) (st : CrawlState),
    crawlFuel pages heads bodies base_url dry_run dest_root (a + b) st
      = crawlFuel pages heads bodies base_url dry_run dest_root b
          (crawlFuel pages heads bodies base_url dry_run dest_root a st) := by
  intro a
  induction a with
  | zero =>
    intro b st
    rw [Nat.zero_add]
    rfl
  | succ a ih =>
    intro b st
    by_cases h : st.queue = []
    · rw [crawlFuel_empty _ _ _ _ _ _ _ h, crawlFuel_empty _ _ _ _ _ _ _ h,
        crawlFuel_empty _ _ _ _ _ _ _ h]
    · rw [Nat.succ_add, crawlFuel_succ _ _ _ _ _ _ _ _ h,
        crawlFuel_succ _ _ _ _ _ _ _ _ h, ih]

theorem crawlStep_fetched_mono (pages : List (String × List String))
    (heads bodies : String → Option Nat) (base_url : String) (dry_run : Bool)
    (dest_root : List String) (st : CrawlState) :
    ∃ t, (crawlStep pages heads bodies base_url dry_run dest_root st).fetched
      = st.fetched ++ t := by
  rcases hq : st.queue.getLast? with _ | current
  · rw [crawlStep_empty _ _ _ _ _ _ _ (List.getLast?_eq_none_iff.mp hq)]
    exact ⟨[], (List.append_nil _).symm⟩
  · by_cases hv : normalize_directory_url current ∈ st.visited
    · rw [crawlStep_visited_case _ _ _ _ _ _ _ _ hq hv]
      exact ⟨[], (List.append_nil _).symm⟩
    · rcases hp : lookupPages pages current with _ | links
      · rw [crawlStep_fresh_none _ _ _ _ _ _ _ _ hq hv hp]
        exact ⟨[current], rfl⟩
      · rw [crawlStep_fresh_some _ _ _ _ _ _ _ _ _ hq hv hp]
        rw [foldl_processLink_fetched]
        exact ⟨[current], rfl⟩

theorem crawlStep_dispatched_mono (pages : List (String × List String))
    (heads bodies : String → Option Nat) (base_url : String) (dry_run : Bool)
    (dest_root : List String) (st : CrawlState) :
    ∃ t, (crawlStep pages heads bodies base_url dry_run dest_root st).dispatched
      = st.dispatched ++ t := by
  rcases hq : st.queue.getLast? with _ | current
  · rw [crawlStep_empty _ _ _ _ _ _ _ (List.getLast?_eq_none_iff.mp hq)]
    exact ⟨[], (List.append_nil _).symm⟩
  · by_cases hv : normalize_directory_url current ∈ st.visited
    · rw [crawlStep_visited_case _ _ _ _ _ _ _ _ hq hv]
      exact ⟨[], (List.append_nil _).symm⟩
    · rcases hp : lookupPages pages current with _ | links
      · rw [crawlStep_fresh_none _ _ _ _ _ _ _ _ hq hv hp]
        exact ⟨[], (List.append_nil _).symm⟩
      · rw [crawlStep_fresh_some _ _ _ _ _ _ _ _ _ hq hv hp]
        rw [foldl_processLink_dispatched]
        exact ⟨_, rfl⟩

theorem crawlFuel_fetched_mono (pages : List (String × List String))
    (heads bodies : String → Option Nat) (base_url : String) (dry_run : Bool)
    (dest_root : List String) :
    ∀ (n : Nat) (st : CrawlState),
    ∃ t, (crawlFuel pages heads bodies base_url dry_run dest_root n st).fetched
      = st.fetched ++ t := by
  intro n
  induction n with
  | zero => exact fun st => ⟨[], (List.append_nil _).symm⟩
  | succ n ih =>
    intro st
    by_cases h : st.queue = []
    · rw [crawlFuel_empty _ _ _ _ _ _ _ h]
      exact ⟨[], (List.append_nil _).symm⟩
    · rw [crawlFuel_succ _ _ _ _ _ _ _ _ h]
      obtain ⟨t1, h1⟩ := crawlStep_fetched_mono pages heads bodies base_url dry_run dest_root st
      obtain ⟨t2, h2⟩ := ih (crawlStep pages heads bodies base_url dry_run dest_root st)
      exact ⟨t1 ++ t2, by rw [h2, h1, List.append_assoc]⟩

theorem crawlFuel_dispatched_mono (pages : List (String × List String))
    (heads bodies : String → Option Nat) (base_url : String) (dry_run : Bool)
    (dest_root : List String) :
    ∀ (n : Nat) (st : CrawlState),
    ∃ t, (crawlFuel pages heads bodies base_url dry_run dest_root n st).dispatched
      = st.dispatched ++ t := by
  intro n
  induction n with
  | zero => exact fun st => ⟨[], (List.append_nil _).symm⟩
  | succ n ih =>
    intro st
    by_cases h : st.queue = []
    · rw [crawlFuel_empty _ _ _ _ _ _ _ h]
      exact ⟨[], (List.append_nil _).symm⟩
    · rw [crawlFuel_succ _ _ _ _ _ _ _ _ h]
      obtain ⟨t1, h1⟩ := crawlStep_dispatched_mono pages heads bodies base_url dry_run dest_root st
      obtain ⟨t2, h2⟩ := ih (crawlStep pages heads bodies base_url dry_run dest_root st)
      exact ⟨t1 ++ t2, by rw [h2, h1, List.append_assoc]⟩

theorem crawlFuel_dispatched_mem (pages : List (String × List String))
    (heads bodies : String → Option Nat) (base_url : String) (dry_run : Bool)
    (dest_root : List String) (n : Nat) (st : CrawlState) (u : String)
    (h : u ∈ st.dispatched) :
    u ∈ (crawlFuel pages heads bodies base_url dry_run dest_root n st).dispatched := by
  obtain ⟨t, ht⟩ := crawlFuel_dispatched_mono pages heads bodies base_url dry_run dest_root n st
  rw [ht]
  exact List.mem_append_left t h

/-! ## Claim C7: which URL is fetched -/

set_option maxHeartbeats 4000000 in
/-- C7 counterexample: with root `https://h/r/` whose listing links to
`sub` (no trailing slash), the second loop iteration pops
`https://h/r/sub`, records the normalized `https://h/r/sub/` in the
Visited Set, but passes the unnormalized popped URL to `fetch_links`: the
fetched-URL trace contains `https://h/r/sub`, which differs from its
normalization, contradicting the claim that the fetched URL is the
normalized URL of the step. -/
theorem c7_counterexample :
    (crawl [("https://h/r/", ["sub"])] (fun _ => none) (fun _ => none)
        "https://h/r/" ["out"] false 10 []).fetched
      = ["https://h/r/", "https://h/r/sub"] ∧
    normalize_directory_url "https://h/r/sub" = "https://h/r/sub/" ∧
    ("https://h/r/sub" : String) ≠ "https://h/r/sub/" := by
  refine ⟨by decide, by decide, by decide⟩

/-- C7 (amended): in each iteration the Crawler fetches the popped URL
exactly as it was popped from the queue; the normalized form (fragment
stripped, trailing slash added) is used only for the Visited-Set check
and marking.  So the fetched URL and the visited entry coincide only when
the popped URL is already normalized. -/
theorem c7_fetch_uses_popped (pages : List (String × List String))
    (heads bodies : String → Option Nat) (base_url : String) (dry_run : Bool)
    (dest_root : List String) (st : CrawlState) (current : String)
    (hq : st.queue.getLast? = some current)
    (hv : normalize_directory_url current ∉ st.visited) :
    (crawlStep pages heads bodies base_url dry_run dest_root st).fetched
        = st.fetched ++ [current] ∧
    (crawlStep pages heads bodies base_url dry_run dest_root st).visited
        = normalize_directory_url current :: st.visited := by
  rcases hp : lookupPages pages current with _ | links
  · rw [crawlStep_fresh_none _ _ _ _ _ _ _ _ hq hv hp]
    exact ⟨rfl, rfl⟩
  · rw [crawlStep_fresh_some _ _ _ _ _ _ _ _ _ hq hv hp]
    rw [foldl_processLink_fetched, foldl_processLink_visited]
    exact ⟨rfl, rfl⟩

/-- C7 amended-claim witness: the first iteration from the initial state
of a crawl rooted at `https://h/r/` fetches exactly the popped root URL
and marks its normalization visited. -/
theorem c7_fetch_uses_popped_witness :
    ((initState "https://h/r/" []).queue.getLast? = some "https://h/r/" ∧
      normalize_directory_url "https://h/r/" ∉ (initState "https://h/r/" []).visited) ∧
    ((crawlStep [("https://h/r/", ["sub"])] (fun _ => none) (fun _ => none)
        "https://h/r/" false ["out"] (initState "https://h/r/" [])).fetched
        = (initState "https://h/r/" []).fetched ++ ["https://h/r/"] ∧
      (crawlStep [("https://h/r/", ["sub"])] (fun _ => none) (fun _ => none)
        "https://h/r/" false ["out"] (initState "https://h/r/" [])).visited
        = normalize_directory_url "https://h/r/" :: (initState "https://h/r/" []).visited) :=
  ⟨⟨by decide, by decide⟩,
    c7_fetch_uses_popped [("https://h/r/", ["sub"])] (fun _ => none) (fun _ => none)
      "https://h/r/" false ["out"] (initState "https://h/r/" []) "https://h/r/"
      (by decide) (by decide)⟩

/-! ## Claim C1: scope containment -/

theorem linkQueueDelta_scope (base_url current href : String) :
    ∀ u ∈ linkQueueDelta base_url current href, inScope u base_url = true := by
  intro u hu
  unfold linkQueueDelta at hu
  by_cases hs : should_skip_link href = true
  · rw [if_pos hs] at hu
    exact absurd hu (List.not_mem_nil u)
  · rw [if_neg hs] at hu
    by_cases hg : (is_same_origin (urldefragStr (urljoin current href)) base_url
        && is_within_base_path (urldefragStr (urljoin current href)) base_url) = true
    · rw [if_pos hg] at hu
      cases hcl : classify_link href <;> rw [hcl] at hu <;>
        first
          | exact absurd hu (List.not_mem_nil u)
          | (rw [List.mem_singleton] at hu; rw [hu]; exact hg)
    · rw [if_neg hg] at hu
      exact absurd hu (List.not_mem_nil u)

theorem linkDispatchDelta_scope (base_url current href : String) :
    ∀ u ∈ linkDispatchDelta base_url current href, inScope u base_url = true := by
  intro u hu
  unfold linkDispatchDelta at hu
  by_cases hs : should_skip_link href = true
  · rw [if_pos hs] at hu
    exact absurd hu (List.not_mem_nil u)
  · rw [if_neg hs] at hu
    by_cases hg : (is_same_origin (urldefragStr (urljoin current href)) base_url
        && is_within_base_path (urldefragStr (urljoin current href)) base_url) = true
    · rw [if_pos hg] at hu
      cases hcl : classify_link href <;> rw [hcl] at hu <;>
        first
          | exact absurd hu (List.not_mem_nil u)
          | (rw [List.mem_singleton] at hu; rw [hu]; exact hg)
    · rw [if_neg hg] at hu
      exact absurd hu (List.not_mem_nil u)

/-- Out-of-scope links are dropped with no effect on the state at all. -/
theorem processLink_out_of_scope (heads bodies : String → Option Nat)
    (base_url : String) (dry_run : Bool) (dest_root : List String)
    (current : String) (st : CrawlState) (href : String)
    (hg : inScope (urldefragStr (urljoin current href)) base_url = false) :
    processLink heads bodies base_url dry_run dest_root current st href = st := by
  have hg2 : (is_same_origin (urldefragStr (urljoin current href)) base_url
      && is_within_base_path (urldefragStr (urljoin current href)) base_url) = false := hg
  unfold processLink
  by_cases hs : should_skip_link href = true
  · rw [if_pos hs]
  · rw [if_neg hs]
    dsimp only
    rw [hg2]
    rfl

theorem processLink_scope_inv (heads bodies : String → Option Nat)
    (base_url : String) (dry_run : Bool) (dest_root : List String)
    (current : String) (st : CrawlState) (href : String)
    (h : ScopeInv base_url st) :
    ScopeInv base_url (processLink heads bodies base_url dry_run dest_root current st href) := by
  constructor
  · rw [processLink_queue_eq]
    intro u hu
    rcases List.mem_append.mp hu with hu | hu
    · exact h.1 u hu
    · exact linkQueueDelta_scope base_url current href u hu
  · rw [processLink_dispatched_eq]
    intro u hu
    rcases List.mem_append.mp hu with hu | hu
    · exact h.2 u hu
    · exact linkDispatchDelta_scope base_url current href u hu

theorem foldl_processLink_scope_inv (heads bodies : String → Option Nat)
    (base_url : String) (dry_run : Bool) (dest_root : List String) (current : String) :
    ∀ (links : List String) (st : CrawlState), ScopeInv base_url st →
    ScopeInv base_url
      (links.foldl (processLink heads bodies base_url dry_run dest_root current) st) := by
  intro links
  induction links with
  | nil => exact fun st h => h
  | cons l ls ih =>
    intro st h
    exact ih _ (processLink_scope_inv heads bodies base_url dry_run dest_root current st l h)

theorem crawlStep_scope_inv (pages : List (String × List String))
    (heads bodies : String → Option Nat) (base_url : String) (dry_run : Bool)
    (dest_root : List String) (st : CrawlState) (h : ScopeInv base_url st) :
    ScopeInv base_url (crawlStep pages heads bodies base_url dry_run dest_root st) := by
  rcases hq : st.queue.getLast? with _ | current
  · rw [crawlStep_empty _ _ _ _ _ _ _ (List.getLast?_eq_none_iff.mp hq)]
    exact h
  · by_cases hv : normalize_directory_url current ∈ st.visited
    · rw [crawlStep_visited_case _ _ _ _ _ _ _ _ hq hv]
      exact ⟨fun u hu => h.1 u ((List.dropLast_sublist _).subset hu), h.2⟩
    · have h2 : ScopeInv base_url
          { st with queue := st.queue.dropLast,
                    visited := normalize_directory_url current :: st.visited,
                    fetched := st.fetched ++ [current] } :=
        ⟨fun u hu => h.1 u ((List.dropLast_sublist _).subset hu), h.2⟩
      rcases hp : lookupPages pages current with _ | links
      · rw [crawlStep_fresh_none _ _ _ _ _ _ _ _ hq hv hp]
        exact h2
      · rw [crawlStep_fresh_some _ _ _ _ _ _ _ _ _ hq hv hp]
        exact foldl_processLink_scope_inv heads bodies base_url dry_run dest_root
          current links _ h2

theorem crawlFuel_scope_inv (pages : List (String × List String))
    (heads bodies : String → Option Nat) (base_url : String) (dry_run : Bool)
    (dest_root : List String) :
    ∀ (n : Nat) (st : CrawlState), ScopeInv base_url st →
    ScopeInv base_url (crawlFuel pages heads bodies base_url dry_run dest_root n st) := by
  intro n
  induction n with
  | zero => exact fun st h => h
  | succ n ih =>
    intro st h
    by_cases hqe : st.queue = []
    · rw [crawlFuel_empty _ _ _ _ _ _ _ hqe]
      exact h
    · rw [crawlFuel_succ _ _ _ _ _ _ _ _ hqe]
      exact ih _ (crawlStep_scope_inv pages heads bodies base_url dry_run dest_root st h)

/-- C1: in a crawl rooted at `R` (whose normalized root is in scope of
itself, as every fragment- and query-free directory URL is), every URL on
the Work Queue at any point of the run and every URL dispatched to the
Downloader satisfies `isInScope(·, R)` — the same-origin check plus the
root-path-prefix check against the normalized root — and any resolved
link that fails the check is dropped: the loop state is left completely
unchanged by that href. -/
theorem c1_scope_containment (pages : List (String × List String))
    (heads bodies : String → Option Nat) (R : String) (dest_root : List String)
    (dry_run : Bool) (fs0 : Fs)
    (hroot : inScope (normalize_directory_url R) (normalize_directory_url R) = true) :
    ∀ fuel : Nat,
      (∀ u ∈ (crawl pages heads bodies R dest_root dry_run fuel fs0).queue,
        inScope u (normalize_directory_url R) = true) ∧
      (∀ u ∈ (crawl pages heads bodies R dest_root dry_run fuel fs0).dispatched,
        inScope u (normalize_directory_url R) = true) ∧
      (∀ (st : CrawlState) (current href : String),
        inScope (urldefragStr (urljoin current href)) (normalize_directory_url R) = false →
        processLink heads bodies (normalize_directory_url R) dry_run dest_root current st href
          = st) := by
  intro fuel
  have hinit : ScopeInv (normalize_directory_url R) (initState R fs0) := by
    constructor
    · intro u hu
      have hu2 : u ∈ [normalize_directory_url R] := hu
      rw [List.mem_singleton] at hu2
      rw [hu2]
      exact hroot
    · intro u hu
      exact absurd (hu : u ∈ ([] : List String)) (List.not_mem_nil u)
  have hfin := crawlFuel_scope_inv pages heads bodies (normalize_directory_url R) dry_run
    dest_root fuel (initState R fs0) hinit
  exact ⟨hfin.1, hfin.2,
    fun st current href hg =>
      processLink_out_of_scope heads bodies _ dry_run dest_root current st href hg⟩

/-- C1 witness: the default-style root `https://h/images/` is in scope of
itself, so the containment invariant holds for crawls rooted there. -/
theorem c1_scope_containment_witness :
    inScope (normalize_directory_url "https://h/images/")
        (normalize_directory_url "https://h/images/") = true ∧
    (∀ fuel : Nat,
      (∀ u ∈ (crawl [] (fun _ => none) (fun _ => none) "https://h/images/" ["out"]
          false fuel []).queue,
        inScope u (normalize_directory_url "https://h/images/") = true) ∧
      (∀ u ∈ (crawl [] (fun _ => none) (fun _ => none) "https://h/images/" ["out"]
          false fuel []).dispatched,
        inScope u (normalize_directory_url "https://h/images/") = true) ∧
      (∀ (st : CrawlState) (current href : String),
        inScope (urldefragStr (urljoin current href))
            (normalize_directory_url "https://h/images/") = false →
        processLink (fun _ => none) (fun _ => none)
          (normalize_directory_url "https://h/images/") false ["out"] current st href = st)) :=
  ⟨by decide,
    c1_scope_containment [] (fun _ => none) (fun _ => none) "https://h/images/" ["out"]
      false [] (by decide)⟩

/-! ## Lemmas: the traversal is independent of the download side

The queue, visited set, fetch trace and dispatch trace evolve as a
function of the queue and visited set alone: the size oracle, the body
oracle, the dry-run flag, the destination directory and the filesystem
never influence them. -/

theorem crawlStep_control (pages : List (String × List String)) (base_url : String)
    (heads1 bodies1 heads2 bodies2 : String → Option Nat) (dry1 dry2 : Bool)
    (droot1 droot2 : List String) (s1 s2 : CrawlState)
    (hq : s2.queue = s1.queue) (hv : s2.visited = s1.visited)
    (hf : s2.fetched = s1.fetched) (hd : s2.dispatched = s1.dispatched) :
    (crawlStep pages heads2 bodies2 base_url dry2 droot2 s2).queue
      = (crawlStep pages heads1 bodies1 base_url dry1 droot1 s1).queue ∧
    (crawlStep pages heads2 bodies2 base_url dry2 droot2 s2).visited
      = (crawlStep pages heads1 bodies1 base_url dry1 droot1 s1).visited ∧
    (crawlStep pages heads2 bodies2 base_url dry2 droot2 s2).fetched
      = (crawlStep pages heads1 bodies1 base_url dry1 droot1 s1).fetched ∧
    (crawlStep pages heads2 bodies2 base_url dry2 droot2 s2).dispatched
      = (crawlStep pages heads1 bodies1 base_url dry1 droot1 s1).dispatched := by
  rcases hql : s1.queue.getLast? with _ | current
  · have hql2 : s2.queue.getLast? = none := by rw [hq, hql]
    rw [crawlStep_empty _ _ _ _ _ _ _ (List.getLast?_eq_none_iff.mp hql),
      crawlStep_empty _ _ _ _ _ _ _ (List.getLast?_eq_none_iff.mp hql2)]
    exact ⟨hq, hv, hf, hd⟩
  · have hql2 : s2.queue.getLast? = some current := by rw [hq, hql]
    by_cases hvv : normalize_directory_url current ∈ s1.visited
    · have hvv2 : normalize_directory_url current ∈ s2.visited := by rw [hv]; exact hvv
      rw [crawlStep_visited_case _ _ _ _ _ _ _ _ hql hvv,
        crawlStep_visited_case _ _ _ _ _ _ _ _ hql2 hvv2]
      exact ⟨by rw [hq], hv, hf, hd⟩
    · have hvv2 : normalize_directory_url current ∉ s2.visited := by rw [hv]; exact hvv
      rcases hp : lookupPages pages current with _ | links
      · rw [crawlStep_fresh_none _ _ _ _ _ _ _ _ hql hvv hp,
          crawlStep_fresh_none _ _ _ _ _ _ _ _ hql2 hvv2 hp]
        exact ⟨by rw [hq], by rw [hv], by rw [hf], hd⟩
      · rw [crawlStep_fresh_some _ _ _ _ _ _ _ _ _ hql hvv hp,
          crawlStep_fresh_some _ _ _ _ _ _ _ _ _ hql2 hvv2 hp]
        refine ⟨?_, ?_, ?_, ?_⟩
        · rw [foldl_processLink_queue, foldl_processLink_queue]
          dsimp only
          rw [hq]
        · rw [foldl_processLink_visited, foldl_processLink_visited]
          dsimp only
          rw [hv]
        · rw [foldl_processLink_fetched, foldl_processLink_fetched]
          dsimp only
          rw [hf]
        · rw [foldl_processLink_dispatched, foldl_processLink_dispatched]
          dsimp only
          rw [hd]

theorem crawlFuel_control (pages : List (String × List String)) (base_url : String) :
    ∀ (n : Nat) (heads1 bodies1 heads2 bodies2 : String → Option Nat) (dry1 dry2 : Bool)
      (droot1 droot2 : List String) (s1 s2 : CrawlState),
    s2.queue = s1.queue → s2.visited = s1.visited → s2.fetched = s1.fetched →
    s2.dispatched = s1.dispatched →
    (crawlFuel pages heads2 bodies2 base_url dry2 droot2 n s2).queue
      = (crawlFuel pages heads1 bodies1 base_url dry1 droot1 n s1).queue ∧
    (crawlFuel pages heads2 bodies2 base_url dry2 droot2 n s2).visited
      = (crawlFuel pages heads1 bodies1 base_url dry1 droot1 n s1).visited ∧
    (crawlFuel pages heads2 bodies2 base_url dry2 droot2 n s2).fetched
      = (crawlFuel pages heads1 bodies1 base_url dry1 droot1 n s1).fetched ∧
    (crawlFuel pages heads2 bodies2 base_url dry2 droot2 n s2).dispatched
      = (crawlFuel pages heads1 bodies1 base_url dry1 droot1 n s1).dispatched := by
  intro n
  induction n with
  | zero => exact fun _ _ _ _ _ _ _ _ s1 s2 hq hv hf hd => ⟨hq, hv, hf, hd⟩
  | succ n ih =>
    intro heads1 bodies1 heads2 bodies2 dry1 dry2 droot1 droot2 s1 s2 hq hv hf hd
    by_cases hqe : s1.queue = []
    · have hqe2 : s2.queue = [] := by rw [hq, hqe]
      rw [crawlFuel_empty _ _ _ _ _ _ _ hqe, crawlFuel_empty _ _ _ _ _ _ _ hqe2]
      exact ⟨hq, hv, hf, hd⟩
    · have hqe2 : s2.queue ≠ [] := by rw [hq]; exact hqe
      rw [crawlFuel_succ _ _ _ _ _ _ _ _ hqe, crawlFuel_succ _ _ _ _ _ _ _ _ hqe2]
      obtain ⟨cq, cv, cf, cd⟩ := crawlStep_control pages base_url heads1 bodies1 heads2
        bodies2 dry1 dry2 droot1 droot2 s1 s2 hq hv hf hd
      exact ih heads1 bodies1 heads2 bodies2 dry1 dry2 droot1 droot2 _ _ cq cv cf cd

/-! ## Lemmas: dry runs touch nothing -/

theorem processLink_dry_fs_gets (heads bodies : String → Option Nat)
    (base_url : String) (dest_root : List String) (current : String)
    (st : CrawlState) (href : String) :
    (processLink heads bodies base_url true dest_root current st href).fs = st.fs ∧
    (processLink heads bodies base_url true dest_root current st href).gets = st.gets := by
  unfold processLink
  by_cases hs : should_skip_link href = true
  · simp [hs]
  · cases hcl : classify_link href <;>
      by_cases hg : (is_same_origin (urldefragStr (urljoin current href)) base_url
        && is_within_base_path (urldefragStr (urljoin current href)) base_url) = true <;>
      simp [hs, hcl, hg, (download_file_dry bodies _ _ _ _).1,
        (download_file_dry bodies _ _ _ _).2.1]

theorem foldl_processLink_dry_fs_gets (heads bodies : String → Option Nat)
    (base_url : String) (dest_root : List String) (current : String) :
    ∀ (links : List String) (st : CrawlState),
    (links.foldl (processLink heads bodies base_url true dest_root current) st).fs = st.fs ∧
    (links.foldl (processLink heads bodies base_url true dest_root current) st).gets
      = st.gets := by
  intro links
  induction links with
  | nil => exact fun st => ⟨rfl, rfl⟩
  | cons l ls ih =>
    intro st
    rcases ih (processLink heads bodies base_url true dest_root current st l) with ⟨h1, h2⟩
    rcases processLink_dry_fs_gets heads bodies base_url dest_root current st l with ⟨h3, h4⟩
    exact ⟨by rw [List.foldl_cons, h1, h3], by rw [List.foldl_cons, h2, h4]⟩

theorem crawlStep_dry_fs_gets (pages : List (String × List String))
    (heads bodies : String → Option Nat) (base_url : String)
    (dest_root : List String) (st : CrawlState) :
    (crawlStep pages heads bodies base_url true dest_root st).fs = st.fs ∧
    (crawlStep pages heads bodies base_url true dest_root st).gets = st.gets := by
  rcases hq : st.queue.getLast? with _ | current
  · rw [crawlStep_empty _ _ _ _ _ _ _ (List.getLast?_eq_none_iff.mp hq)]
    exact ⟨rfl, rfl⟩
  · by_cases hv : normalize_directory_url current ∈ st.visited
    · rw [crawlStep_visited_case _ _ _ _ _ _ _ _ hq hv]
      exact ⟨rfl, rfl⟩
    · rcases hp : lookupPages pages current with _ | links
      · rw [crawlStep_fresh_none _ _ _ _ _ _ _ _ hq hv hp]
        exact ⟨rfl, rfl⟩
      · rw [crawlStep_fresh_some _ _ _ _ _ _ _ _ _ hq hv hp]
        exact foldl_processLink_dry_fs_gets heads bodies base_url dest_root current links _

theorem crawlFuel_dry_fs_gets (pages : List (String × List String))
    (heads bodies : String → Option Nat) (base_url : String)
    (dest_root : List String) :
    ∀ (n : Nat) (st : CrawlState),
    (crawlFuel pages heads bodies base_url true dest_root n st).fs = st.fs ∧
    (crawlFuel pages heads bodies base_url true dest_root n st).gets = st.gets := by
  intro n
  induction n with
  | zero => exact fun st => ⟨rfl, rfl⟩
  | succ n ih =>
    intro st
    by_cases hqe : st.queue = []
    · rw [crawlFuel_empty _ _ _ _ _ _ _ hqe]
      exact ⟨rfl, rfl⟩
    · rw [crawlFuel_succ _ _ _ _ _ _ _ _ hqe]
      rcases ih (crawlStep pages heads bodies base_url true dest_root st) with ⟨h1, h2⟩
      rcases crawlStep_dry_fs_gets pages heads bodies base_url dest_root st with ⟨h3, h4⟩
      exact ⟨by rw [h1, h3], by rw [h2, h4]⟩

/-! ## Claim C8: dry-run purity -/

/-- C8: a dry run changes nothing under the destination root (the
filesystem map is returned untouched) and issues no file-body GET, for
every discovered file link and whatever the classification outcomes,
while the traversal itself is unchanged: listing pages are fetched, and
directories queued and visited, exactly as in the corresponding wet run. -/
theorem c8_dry_run_purity (pages : List (String × List String))
    (heads bodies : String → Option Nat) (R : String) (dest_root : List String)
    (fs0 : Fs) (fuel : Nat) :
    (crawl pages heads bodies R dest_root true fuel fs0).fs = fs0 ∧
    (crawl pages heads bodies R dest_root true fuel fs0).gets = [] ∧
    (crawl pages heads bodies R dest_root true fuel fs0).fetched
      = (crawl pages heads bodies R dest_root false fuel fs0).fetched ∧
    (crawl pages heads bodies R dest_root true fuel fs0).queue
      = (crawl pages heads bodies R dest_root false fuel fs0).queue ∧
    (crawl pages heads bodies R dest_root true fuel fs0).visited
      = (crawl pages heads bodies R dest_root false fuel fs0).visited ∧
    (crawl pages heads bodies R dest_root true fuel fs0).dispatched
      = (crawl pages heads bodies R dest_root false fuel fs0).dispatched := by
  unfold crawl
  rcases crawlFuel_dry_fs_gets pages heads bodies (normalize_directory_url R) dest_root
    fuel (initState R fs0) with ⟨h1, h2⟩
  obtain ⟨cq, cv, cf, cd⟩ := crawlFuel_control pages (normalize_directory_url R) fuel
    heads bodies heads bodies false true dest_root dest_root
    (initState R fs0) (initState R fs0) rfl rfl rfl rfl
  exact ⟨h1, h2, cf, cq, cv, cd⟩

/-! ## Claim C10: LIFO order -/

theorem contains_eq_true_of_mem {a : String} {l : List String} (h : a ∈ l) :
    l.contains a = true :=
  List.elem_eq_true_of_mem h

theorem contains_eq_false_of_not_mem {a : String} {l : List String} (h : a ∉ l) :
    l.contains a = false := by
  cases hb : l.contains a
  · rfl
  · exact absurd (List.mem_of_elem_eq_true hb) h

/-- C10: the crawler pops from the tail of the queue, so the next
directory it fetches — from any state, within the fuel needed to pop the
whole queue — is the most recently enqueued URL whose normalization is
not yet visited (and if every queued URL is visited, nothing further is
fetched). -/
theorem c10_lifo_depth_first (pages : List (String × List String))
    (heads bodies : String → Option Nat) (base_url : String) (dry_run : Bool)
    (dest_root : List String) :
    ∀ (fuel : Nat) (st : CrawlState), st.queue.length ≤ fuel →
    ((crawlFuel pages heads bodies base_url dry_run dest_root fuel st).fetched.drop
        st.fetched.length).head?
      = (st.queue.filter
          (fun u => ! st.visited.contains (normalize_directory_url u))).getLast? := by
  intro fuel
  induction fuel with
  | zero =>
    intro st hlen
    have hqe : st.queue = [] := List.length_eq_zero.mp (Nat.le_zero.mp hlen)
    rw [crawlFuel_zero, List.drop_length, hqe]
    rfl
  | succ n ih =>
    intro st hlen
    by_cases hqe : st.queue = []
    · rw [crawlFuel_empty _ _ _ _ _ _ _ hqe, List.drop_length, hqe]
      rfl
    · obtain ⟨current, hq⟩ : ∃ c, st.queue.getLast? = some c := by
        rcases hql : st.queue.getLast? with _ | c
        · exact absurd (List.getLast?_eq_none_iff.mp hql) hqe
        · exact ⟨c, rfl⟩
      have hdecomp : st.queue.dropLast ++ [current] = st.queue :=
        List.dropLast_append_getLast? current (Option.mem_def.mpr hq)
      rw [crawlFuel_succ _ _ _ _ _ _ _ _ hqe]
      by_cases hv : normalize_directory_url current ∈ st.visited
      · rw [crawlStep_visited_case _ _ _ _ _ _ _ _ hq hv]
        have hlen2 : st.queue.dropLast.length ≤ n := by
          rw [List.length_dropLast]
          omega
        have hih := ih { st with queue := st.queue.dropLast } hlen2
        dsimp only at hih
        rw [hih]
        conv_rhs => rw [← hdecomp]
        rw [List.filter_append]
        have hpc : (fun u => ! st.visited.contains (normalize_directory_url u)) current
            = false := by
          simp [hv]
        simp only [List.filter_cons, hpc, Bool.false_eq_true, if_false, List.filter_nil,
          List.append_nil]
      · have hstep : ∀ st2 : CrawlState,
            st2.fetched = st.fetched ++ [current] →
            ((crawlFuel pages heads bodies base_url dry_run dest_root n st2).fetched.drop
                st.fetched.length).head? = some current := by
          intro st2 hf2
          obtain ⟨t, ht⟩ := crawlFuel_fetched_mono pages heads bodies base_url dry_run
            dest_root n st2
          rw [ht, hf2, List.append_assoc, List.drop_left]
          rfl
        have hrhs : (st.queue.filter
            (fun u => ! st.visited.contains (normalize_directory_url u))).getLast?
            = some current := by
          conv_lhs => rw [← hdecomp]
          rw [List.filter_append]
          have hpc : (fun u => ! st.visited.contains (normalize_directory_url u)) current
              = true := by
            simp [hv]
          simp only [List.filter_cons, hpc, eq_self_iff_true, if_true, List.filter_nil]
          exact List.getLast?_concat _
        rcases hp : lookupPages pages current with _ | links
        · rw [crawlStep_fresh_none _ _ _ _ _ _ _ _ hq hv hp, hrhs]
          exact hstep _ rfl
        · rw [crawlStep_fresh_some _ _ _ _ _ _ _ _ _ hq hv hp, hrhs]
          exact hstep _ (by rw [foldl_processLink_fetched])

/-- C10 witness: from a state whose queue holds `a/` then `b/` (so `b/`
was enqueued most recently), the next fetched directory is `b/`. -/
theorem c10_lifo_depth_first_witness :
    (⟨["https://h/r/a/", "https://h/r/b/"], [], [], [], [], [], []⟩ :
        CrawlState).queue.length ≤ 2 ∧
    (((crawlFuel [] (fun _ => none) (fun _ => none) "https://h/r/" false ["out"] 2
        ⟨["https://h/r/a/", "https://h/r/b/"], [], [], [], [], [], []⟩).fetched.drop
        (⟨["https://h/r/a/", "https://h/r/b/"], [], [], [], [], [], []⟩ :
          CrawlState).fetched.length).head?
      = ((⟨["https://h/r/a/", "https://h/r/b/"], [], [], [], [], [], []⟩ :
          CrawlState).queue.filter
          (fun u => ! (⟨["https://h/r/a/", "https://h/r/b/"], [], [], [], [], [], []⟩ :
            CrawlState).visited.contains (normalize_directory_url u))).getLast?) :=
  ⟨by decide,
    c10_lifo_depth_first [] (fun _ => none) (fun _ => none) "https://h/r/" false ["out"] 2
      ⟨["https://h/r/a/", "https://h/r/b/"], [], [], [], [], [], []⟩ (by decide)⟩

/-! ## Lemmas: termination of the crawl loop -/

theorem lookupPages_mem (pages : List (String × List String)) (u : String)
    (ls : List String) (h : lookupPages pages u = some ls) : (u, ls) ∈ pages := by
  induction pages with
  | nil => exact Option.noConfusion h
  | cons p rest ih =>
    obtain ⟨k, v⟩ := p
    unfold lookupPages at h
    by_cases hp : k = u
    · rw [if_pos hp] at h
      injection h with h2
      have h3 : v = ls := h2
      rw [hp, h3]
      exact List.mem_cons_self _ _
    · rw [if_neg hp] at h
      exact List.mem_cons_of_mem _ (ih h)

theorem le_foldr_max : ∀ (l : List Nat) (x : Nat), x ∈ l → x ≤ l.foldr Nat.max 0 := by
  intro l
  induction l with
  | nil => exact fun x hx => absurd hx (List.not_mem_nil x)
  | cons a rest ih =>
    intro x hx
    rcases List.mem_cons.mp hx with h | h
    · rw [h, List.foldr_cons]
      exact Nat.le_max_left _ _
    · exact Nat.le_trans (ih x h) (Nat.le_max_right _ _)

theorem maxLinks_bound (pages : List (String × List String)) (u : String)
    (ls : List String) (h : (u, ls) ∈ pages) : ls.length ≤ maxLinks pages := by
  unfold maxLinks
  exact le_foldr_max _ _ (List.mem_map.mpr ⟨(u, ls), h, rfl⟩)

theorem linkQueueDelta_mem (base_url current href u : String)
    (h : u ∈ linkQueueDelta base_url current href) :
    u = urldefragStr (urljoin current href) := by
  unfold linkQueueDelta at h
  by_cases hs : should_skip_link href = true
  · rw [if_pos hs] at h
    exact absurd h (List.not_mem_nil u)
  · rw [if_neg hs] at h
    by_cases hg : (is_same_origin (urldefragStr (urljoin current href)) base_url
        && is_within_base_path (urldefragStr (urljoin current href)) base_url) = true
    · rw [if_pos hg] at h
      cases hcl : classify_link href <;> rw [hcl] at h <;>
        first
          | exact absurd h (List.not_mem_nil u)
          | exact List.mem_singleton.mp h
    · rw [if_neg hg] at h
      exact absurd h (List.not_mem_nil u)

theorem linkQueueDelta_length (base_url current href : String) :
    (linkQueueDelta base_url current href).length ≤ 1 := by
  unfold linkQueueDelta
  by_cases hs : should_skip_link href = true
  · simp [hs]
  · cases hcl : classify_link href <;>
      by_cases hg : (is_same_origin (urldefragStr (urljoin current href)) base_url
        && is_within_base_path (urldefragStr (urljoin current href)) base_url) = true <;>
      simp [hs, hcl, hg]

theorem flatMap_queueDelta_length (base_url current : String) :
    ∀ links : List String,
    (links.flatMap (linkQueueDelta base_url current)).length ≤ links.length := by
  intro links
  induction links with
  | nil => simp
  | cons l ls ih =>
    rw [List.flatMap_cons, List.length_append, List.length_cons]
    have h1 := linkQueueDelta_length base_url current l
    omega

theorem flatMap_queueDelta_mem (pages : List (String × List String))
    (base_url current : String) (links : List String) (u : String)
    (hp : (current, links) ∈ pages)
    (hu : u ∈ links.flatMap (linkQueueDelta base_url current)) :
    u ∈ allJoins pages := by
  rcases List.mem_flatMap.mp hu with ⟨href, hhref, hmem⟩
  rw [linkQueueDelta_mem base_url current href u hmem]
  unfold allJoins
  exact List.mem_flatMap.mpr ⟨(current, links), hp, List.mem_map.mpr ⟨href, hhref, rfl⟩⟩

theorem nodup_subset_length_le (l L : List String) (hn : l.Nodup)
    (hs : ∀ x ∈ l, x ∈ L) : l.length ≤ L.length := by
  have h1 : l.toFinset.card = l.length := List.toFinset_card_of_nodup hn
  have h2 : l.toFinset ⊆ L.toFinset := by
    intro x hx
    exact List.mem_toFinset.mpr (hs x (List.mem_toFinset.mp hx))
  calc l.length = l.toFinset.card := h1.symm
    _ ≤ L.toFinset.card := Finset.card_le_card h2
    _ ≤ L.length := L.toFinset_card_le

/-- One loop iteration preserves the crawl invariant and strictly
decreases the measure: the popped entry either was already visited (queue
shrinks) or adds a fresh entry to the bounded Visited Set while growing
the queue by at most `maxLinks`. -/
theorem crawlStep_measure (pages : List (String × List String))
    (heads bodies : String → Option Nat) (base_url : String) (dry_run : Bool)
    (dest_root : List String) (st : CrawlState)
    (hinv : CrawlInv pages base_url st) (hne : st.queue ≠ []) :
    CrawlInv pages base_url (crawlStep pages heads bodies base_url dry_run dest_root st) ∧
    crawlMeasure pages base_url (crawlStep pages heads bodies base_url dry_run dest_root st)
      < crawlMeasure pages base_url st := by
  obtain ⟨current, hq⟩ : ∃ c, st.queue.getLast? = some c := by
    rcases hql : st.queue.getLast? with _ | c
    · exact absurd (List.getLast?_eq_none_iff.mp hql) hne
    · exact ⟨c, rfl⟩
  obtain ⟨hnd, hvU, hqU⟩ := hinv
  have hcur : current ∈ st.queue := by
    have hdecomp := List.dropLast_append_getLast? current (Option.mem_def.mpr hq)
    rw [← hdecomp]
    exact List.mem_append_right _ (List.mem_singleton.mpr rfl)
  have hlen1 : 1 ≤ st.queue.length := by
    rcases hqq : st.queue with _ | _
    · exact absurd hqq hne
    · simp
  by_cases hv : normalize_directory_url current ∈ st.visited
  · rw [crawlStep_visited_case _ _ _ _ _ _ _ _ hq hv]
    refine ⟨⟨hnd, hvU, fun u hu => hqU u ((List.dropLast_sublist _).subset hu)⟩, ?_⟩
    unfold crawlMeasure
    dsimp only
    rw [List.length_dropLast]
    generalize ((visitedUniverse pages base_url).length - st.visited.length)
      * (maxLinks pages + 1) = A
    omega
  · have hvV : normalize_directory_url current ∈ visitedUniverse pages base_url :=
      List.mem_map_of_mem normalize_directory_url (hqU current hcur)
    have hnd2 : (normalize_directory_url current :: st.visited).Nodup := by
      rw [List.nodup_cons]
      exact ⟨hv, hnd⟩
    have hvU2 : ∀ v ∈ normalize_directory_url current :: st.visited,
        v ∈ visitedUniverse pages base_url := by
      intro v hvv
      rcases List.mem_cons.mp hvv with h | h
      · rw [h]
        exact hvV
      · exact hvU v h
    have hlt : st.visited.length < (visitedUniverse pages base_url).length := by
      have hle := nodup_subset_length_le (normalize_directory_url current :: st.visited)
        (visitedUniverse pages base_url) hnd2 hvU2
      simp only [List.length_cons] at hle
      omega
    have hsplit : (visitedUniverse pages base_url).length - st.visited.length
        = ((visitedUniverse pages base_url).length - (st.visited.length + 1)) + 1 := by
      omega
    rcases hp : lookupPages pages current with _ | links
    · rw [crawlStep_fresh_none _ _ _ _ _ _ _ _ hq hv hp]
      refine ⟨⟨hnd2, hvU2, fun u hu => hqU u ((List.dropLast_sublist _).subset hu)⟩, ?_⟩
      unfold crawlMeasure
      dsimp only
      rw [List.length_dropLast, List.length_cons, hsplit, Nat.add_mul, Nat.one_mul]
      generalize ((visitedUniverse pages base_url).length - (st.visited.length + 1))
        * (maxLinks pages + 1) = A
      omega
    · rw [crawlStep_fresh_some _ _ _ _ _ _ _ _ _ hq hv hp]
      have hfq := foldl_processLink_queue heads bodies base_url dry_run dest_root current
        links { st with queue := st.queue.dropLast,
                        visited := normalize_directory_url current :: st.visited,
                        fetched := st.fetched ++ [current] }
      have hfv := foldl_processLink_visited heads bodies base_url dry_run dest_root current
        links { st with queue := st.queue.dropLast,
                        visited := normalize_directory_url current :: st.visited,
                        fetched := st.fetched ++ [current] }
      constructor
      · refine ⟨?_, ?_, ?_⟩
        · rw [hfv]
          exact hnd2
        · rw [hfv]
          exact hvU2
        · rw [hfq]
          intro u hu
          rcases List.mem_append.mp hu with h | h
          · exact hqU u ((List.dropLast_sublist _).subset h)
          · unfold queueUniverse
            exact List.mem_cons_of_mem _
              (flatMap_queueDelta_mem pages base_url current links u
                (lookupPages_mem pages current links hp) h)
      · unfold crawlMeasure
        rw [hfq, hfv]
        dsimp only
        rw [List.length_append, List.length_dropLast, List.length_cons, hsplit,
          Nat.add_mul, Nat.one_mul]
        have hfl := flatMap_queueDelta_length base_url current links
        have hml := maxLinks_bound pages current links (lookupPages_mem pages current links hp)
        generalize ((visitedUniverse pages base_url).length - (st.visited.length + 1))
          * (maxLinks pages + 1) = A
        omega

/-- With fuel at least the measure, the loop drains the queue. -/
theorem crawlFuel_terminates (pages : List (String × List String))
    (heads bodies : String → Option Nat) (base_url : String) (dry_run : Bool)
    (dest_root : List String) :
    ∀ (m : Nat) (st : CrawlState), crawlMeasure pages base_url st ≤ m →
    CrawlInv pages base_url st →
    (crawlFuel pages heads bodies base_url dry_run dest_root m st).queue = [] := by
  intro m
  induction m with
  | zero =>
    intro st hm _
    have hz : st.queue.length = 0 := by
      unfold crawlMeasure at hm
      omega
    rw [crawlFuel_zero]
    exact List.length_eq_zero.mp hz
  | succ m ih =>
    intro st hm hinv
    by_cases hqe : st.queue = []
    · rw [crawlFuel_empty _ _ _ _ _ _ _ hqe]
      exact hqe
    · rw [crawlFuel_succ _ _ _ _ _ _ _ _ hqe]
      obtain ⟨hinv2, hdec⟩ := crawlStep_measure pages heads bodies base_url dry_run
        dest_root st hinv hqe
      exact ih _ (by omega) hinv2

/-! ## Lemmas: each directory fetched at most once -/

theorem crawlStep_fetchInv (pages : List (String × List String))
    (heads bodies : String → Option Nat) (base_url : String) (dry_run : Bool)
    (dest_root : List String) (st : CrawlState) (h : FetchInv st) :
    FetchInv (crawlStep pages heads bodies base_url dry_run dest_root st) := by
  rcases hq : st.queue.getLast? with _ | current
  · rw [crawlStep_empty _ _ _ _ _ _ _ (List.getLast?_eq_none_iff.mp hq)]
    exact h
  · by_cases hv : normalize_directory_url current ∈ st.visited
    · rw [crawlStep_visited_case _ _ _ _ _ _ _ _ hq hv]
      exact h
    · obtain ⟨h1, h2⟩ := h
      have key : FetchInv
          { st with queue := st.queue.dropLast,
                    visited := normalize_directory_url current :: st.visited,
                    fetched := st.fetched ++ [current] } := by
        constructor
        · dsimp only
          rw [List.map_append, List.nodup_append]
          refine ⟨h1, List.nodup_singleton _, ?_⟩
          intro a ha hb
          rcases List.mem_map.mp ha with ⟨u, hu, hau⟩
          rcases List.mem_map.mp hb with ⟨w, hw, haw⟩
          rw [List.mem_singleton] at hw
          rw [← haw, hw] at hau
          exact hv (hau ▸ h2 u hu)
        · intro u hu
          dsimp only at hu ⊢
          rcases List.mem_append.mp hu with hm | hm
          · exact List.mem_cons_of_mem _ (h2 u hm)
          · rw [List.mem_singleton] at hm
            rw [hm]
            exact List.mem_cons_self _ _
      rcases hp : lookupPages pages current with _ | links
      · rw [crawlStep_fresh_none _ _ _ _ _ _ _ _ hq hv hp]
        exact key
      · rw [crawlStep_fresh_some _ _ _ _ _ _ _ _ _ hq hv hp]
        constructor
        · rw [foldl_processLink_fetched]
          exact key.1
        · intro u hu
          rw [foldl_processLink_fetched] at hu
          rw [foldl_processLink_visited]
          exact key.2 u hu

theorem crawlFuel_fetchInv (pages : List (String × List String))
    (heads bodies : String → Option Nat) (base_url : String) (dry_run : Bool)
    (dest_root : List String) :
    ∀ (n : Nat) (st : CrawlState), FetchInv st →
    FetchInv (crawlFuel pages heads bodies base_url dry_run dest_root n st) := by
  intro n
  induction n with
  | zero => exact fun st h => h
  | succ n ih =>
    intro st h
    by_cases hqe : st.queue = []
    · rw [crawlFuel_empty _ _ _ _ _ _ _ hqe]
      exact h
    · rw [crawlFuel_succ _ _ _ _ _ _ _ _ hqe]
      exact ih _ (crawlStep_fetchInv pages heads bodies base_url dry_run dest_root st h)

theorem crawlStep_visited_mono (pages : List (String × List String))
    (heads bodies : String → Option Nat) (base_url : String) (dry_run : Bool)
    (dest_root : List String) (st : CrawlState) :
    st.visited ⊆ (crawlStep pages heads bodies base_url dry_run dest_root st).visited := by
  rcases hq : st.queue.getLast? with _ | current
  · rw [crawlStep_empty _ _ _ _ _ _ _ (List.getLast?_eq_none_iff.mp hq)]
    exact fun x hx => hx
  · by_cases hv : normalize_directory_url current ∈ st.visited
    · rw [crawlStep_visited_case _ _ _ _ _ _ _ _ hq hv]
      exact fun x hx => hx
    · rcases hp : lookupPages pages current with _ | links
      · rw [crawlStep_fresh_none _ _ _ _ _ _ _ _ hq hv hp]
        exact fun x hx => List.mem_cons_of_mem _ hx
      · rw [crawlStep_fresh_some _ _ _ _ _ _ _ _ _ hq hv hp]
        rw [foldl_processLink_visited]
        exact fun x hx => List.mem_cons_of_mem _ hx

theorem crawlFuel_visited_mono (pages : List (String × List String))
    (heads bodies : String → Option Nat) (base_url : String) (dry_run : Bool)
    (dest_root : List String) :
    ∀ (n : Nat) (st : CrawlState),
    st.visited ⊆ (crawlFuel pages heads bodies base_url dry_run dest_root n st).visited := by
  intro n
  induction n with
  | zero => exact fun st => List.Subset.refl _
  | succ n ih =>
    intro st
    by_cases hqe : st.queue = []
    · rw [crawlFuel_empty _ _ _ _ _ _ _ hqe]
      exact fun x hx => hx
    · rw [crawlFuel_succ _ _ _ _ _ _ _ _ hqe]
      exact fun x hx => ih _
        (crawlStep_visited_mono pages heads bodies base_url dry_run dest_root st hx)

/-! ## Claim C2: termination and at-most-once fetching -/

set_option maxHeartbeats 4000000 in
/-- C2: on every finite listing graph the crawl loop terminates — there
is a fuel after which the queue is empty and the state never changes
again — and each directory URL is fetched at most once up to
normalization, because a popped URL's normalization is added to the
Visited Set before its links are processed and the Visited Set never
shrinks.  For the cyclic graph `root → A/ → B/ → A` rooted at
`https://h/r/`, the run fetches the root, `A/` and `B/` exactly once each
and stops with an empty queue. -/
theorem c2_cycle_terminates_fetch_once :
    (∀ (pages : List (String × List String)) (heads bodies : String → Option Nat)
        (R : String) (dest_root : List String) (dry_run : Bool) (fs0 : Fs),
      ∃ fuel,
        (crawl pages heads bodies R dest_root dry_run fuel fs0).queue = [] ∧
        ∀ extra, crawl pages heads bodies R dest_root dry_run (fuel + extra) fs0
          = crawl pages heads bodies R dest_root dry_run fuel fs0) ∧
    (∀ (pages : List (String × List String)) (heads bodies : String → Option Nat)
        (R : String) (dest_root : List String) (dry_run : Bool) (fs0 : Fs) (fuel : Nat),
      ((crawl pages heads bodies R dest_root dry_run fuel fs0).fetched.map
        normalize_directory_url).Nodup) ∧
    (∀ (pages : List (String × List String)) (heads bodies : String → Option Nat)
        (base_url : String) (dry_run : Bool) (dest_root : List String) (n : Nat)
        (st : CrawlState),
      st.visited ⊆ (crawlFuel pages heads bodies base_url dry_run dest_root n st).visited) ∧
    ((crawl [("https://h/r/", ["A/"]), ("https://h/r/A/", ["/r/B/"]),
        ("https://h/r/B/", ["/r/A/"])] (fun _ => none) (fun _ => none)
        "https://h/r/" ["out"] false 10 []).fetched
      = ["https://h/r/", "https://h/r/A/", "https://h/r/B/"] ∧
     (crawl [("https://h/r/", ["A/"]), ("https://h/r/A/", ["/r/B/"]),
        ("https://h/r/B/", ["/r/A/"])] (fun _ => none) (fun _ => none)
        "https://h/r/" ["out"] false 10 []).queue = []) := by
  refine ⟨?_, ?_, ?_, by decide, by decide⟩
  · intro pages heads bodies R dest_root dry_run fs0
    have hinv : CrawlInv pages (normalize_directory_url R) (initState R fs0) := by
      refine ⟨List.nodup_nil, ?_, ?_⟩
      · intro v hv
        exact absurd (hv : v ∈ ([] : List String)) (List.not_mem_nil v)
      · intro u hu
        have hu2 : u ∈ [normalize_directory_url R] := hu
        rw [List.mem_singleton] at hu2
        rw [hu2]
        unfold queueUniverse
        exact List.mem_cons_self _ _
    have hterm := crawlFuel_terminates pages heads bodies (normalize_directory_url R)
      dry_run dest_root (crawlMeasure pages (normalize_directory_url R) (initState R fs0))
      (initState R fs0) (Nat.le_refl _) hinv
    refine ⟨crawlMeasure pages (normalize_directory_url R) (initState R fs0), hterm, ?_⟩
    intro extra
    show crawlFuel pages heads bodies (normalize_directory_url R) dry_run dest_root
        (crawlMeasure pages (normalize_directory_url R) (initState R fs0) + extra)
        (initState R fs0) = _
    rw [crawlFuel_add]
    exact crawlFuel_empty _ _ _ _ _ _ _ hterm extra
  · intro pages heads bodies R dest_root dry_run fs0 fuel
    have hinit : FetchInv (initState R fs0) := by
      constructor
      · exact List.nodup_nil
      · intro u hu
        exact absurd (hu : u ∈ ([] : List String)) (List.not_mem_nil u)
    exact (crawlFuel_fetchInv pages heads bodies (normalize_directory_url R) dry_run
      dest_root fuel (initState R fs0) hinit).1
  · intro pages heads bodies base_url dry_run dest_root n st
    exact crawlFuel_visited_mono pages heads bodies base_url dry_run dest_root n st

/-! ## Lemmas: idempotence of a second run -/

theorem fsLookup_insert (fs : Fs) (p q : List String) (n : Nat) :
    fsLookup (fsInsert fs p n) q = if p = q then some n else fsLookup fs q := rfl

/-- After `processLink` in a wet run with total, GET-consistent,
collision-consistent sizes, every dispatched URL's local file has exactly
its reported remote size. -/
theorem processLink_downloadInv (heads bodies : String → Option Nat)
    (base_url : String) (dest_root : List String) (current : String)
    (st : CrawlState) (href : String)
    (hhb : ∀ u, bodies u = heads u)
    (hsome : ∀ u, ∃ s, heads u = some s)
    (hcoll : ∀ u v, build_local_path u base_url dest_root
      = build_local_path v base_url dest_root → heads u = heads v)
    (hinv : ∀ u ∈ st.dispatched,
      fsLookup st.fs (build_local_path u base_url dest_root) = heads u) :
    ∀ u ∈ (processLink heads bodies base_url false dest_root current st href).dispatched,
      fsLookup (processLink heads bodies base_url false dest_root current st href).fs
        (build_local_path u base_url dest_root) = heads u := by
  unfold processLink
  by_cases hs : should_skip_link href = true
  · rw [if_pos hs]
    exact hinv
  · rw [if_neg hs]
    dsimp only
    by_cases hg : (is_same_origin (urldefragStr (urljoin current href)) base_url
        && is_within_base_path (urldefragStr (urljoin current href)) base_url) = true
    · rw [if_pos hg]
      cases hcl : classify_link href
      · exact hinv
      · -- pdf dispatch
        dsimp only
        obtain ⟨s, hsz⟩ := hsome (urldefragStr (urljoin current href))
        by_cases hsk : ∃ t, fsLookup st.fs
            (build_local_path (urldefragStr (urljoin current href)) base_url dest_root)
            = some t ∧ heads (urldefragStr (urljoin current href)) = some t
        · obtain ⟨t, hL, hE⟩ := hsk
          rw [download_file_skip_eq bodies _ _ false _ st.fs t hL hE]
          intro u hu
          dsimp only at hu ⊢
          rcases List.mem_append.mp hu with hm | hm
          · exact hinv u hm
          · rw [List.mem_singleton] at hm
            rw [hm, hL, ← hE]
        · have hns : ∀ t, fsLookup st.fs
              (build_local_path (urldefragStr (urljoin current href)) base_url dest_root)
              = some t → heads (urldefragStr (urljoin current href)) ≠ some t :=
            fun t ht he => hsk ⟨t, ht, he⟩
          rw [download_file_no_skip_eq bodies _ _ false _ st.fs hns]
          unfold proceedResult
          rw [hhb (urldefragStr (urljoin current href)), hsz]
          dsimp only
          simp only [Bool.false_eq_true, if_false]
          rw [if_neg (by omega : ¬ s ≠ s)]
          intro u hu
          dsimp only at hu ⊢
          rcases List.mem_append.mp hu with hm | hm
          · rw [fsLookup_insert]
            by_cases hpq : build_local_path (urldefragStr (urljoin current href))
                base_url dest_root = build_local_path u base_url dest_root
            · rw [if_pos hpq]
              rw [← hcoll u (urldefragStr (urljoin current href)) hpq.symm] at hsz
              rw [hsz]
            · rw [if_neg hpq]
              exact hinv u hm
          · rw [List.mem_singleton] at hm
            rw [hm, fsLookup_insert, if_pos rfl, hsz]
      · exact hinv
      · exact hinv
    · rw [if_neg hg]
      exact hinv

theorem foldl_processLink_downloadInv (heads bodies : String → Option Nat)
    (base_url : String) (dest_root : List String) (current : String)
    (hhb : ∀ u, bodies u = heads u)
    (hsome : ∀ u, ∃ s, heads u = some s)
    (hcoll : ∀ u v, build_local_path u base_url dest_root
      = build_local_path v base_url dest_root → heads u = heads v) :
    ∀ (links : List String) (st : CrawlState),
    (∀ u ∈ st.dispatched,
      fsLookup st.fs (build_local_path u base_url dest_root) = heads u) →
    ∀ u ∈ (links.foldl (processLink heads bodies base_url false dest_root current)
        st).dispatched,
      fsLookup (links.foldl (processLink heads bodies base_url false dest_root current)
          st).fs
        (build_local_path u base_url dest_root) = heads u := by
  intro links
  induction links with
  | nil => exact fun st h => h
  | cons l ls ih =>
    intro st h
    exact ih _ (processLink_downloadInv heads bodies base_url dest_root current st l
      hhb hsome hcoll h)

theorem crawlStep_downloadInv (pages : List (String × List String))
    (heads bodies : String → Option Nat) (base_url : String)
    (dest_root : List String) (st : CrawlState)
    (hhb : ∀ u, bodies u = heads u)
    (hsome : ∀ u, ∃ s, heads u = some s)
    (hcoll : ∀ u v, build_local_path u base_url dest_root
      = build_local_path v base_url dest_root → heads u = heads v)
    (hinv : ∀ u ∈ st.dispatched,
      fsLookup st.fs (build_local_path u base_url dest_root) = heads u) :
    ∀ u ∈ (crawlStep pages heads bodies base_url false dest_root st).dispatched,
      fsLookup (crawlStep pages heads bodies base_url false dest_root st).fs
        (build_local_path u base_url dest_root) = heads u := by
  rcases hq : st.queue.getLast? with _ | current
  · rw [crawlStep_empty _ _ _ _ _ _ _ (List.getLast?_eq_none_iff.mp hq)]
    exact hinv
  · by_cases hv : normalize_directory_url current ∈ st.visited
    · rw [crawlStep_visited_case _ _ _ _ _ _ _ _ hq hv]
      exact hinv
    · rcases hp : lookupPages pages current with _ | links
      · rw [crawlStep_fresh_none _ _ _ _ _ _ _ _ hq hv hp]
        exact hinv
      · rw [crawlStep_fresh_some _ _ _ _ _ _ _ _ _ hq hv hp]
        exact foldl_processLink_downloadInv heads bodies base_url dest_root current
          hhb hsome hcoll links _ hinv

theorem crawlFuel_downloadInv (pages : List (String × List String))
    (heads bodies : String → Option Nat) (base_url : String)
    (dest_root : List String)
    (hhb : ∀ u, bodies u = heads u)
    (hsome : ∀ u, ∃ s, heads u = some s)
    (hcoll : ∀ u v, build_local_path u base_url dest_root
      = build_local_path v base_url dest_root → heads u = heads v) :
    ∀ (n : Nat) (st : CrawlState),
    (∀ u ∈ st.dispatched,
      fsLookup st.fs (build_local_path u base_url dest_root) = heads u) →
    ∀ u ∈ (crawlFuel pages heads bodies base_url false dest_root n st).dispatched,
      fsLookup (crawlFuel pages heads bodies base_url false dest_root n st).fs
        (build_local_path u base_url dest_root) = heads u := by
  intro n
  induction n with
  | zero => exact fun st h => h
  | succ n ih =>
    intro st h
    by_cases hqe : st.queue = []
    · rw [crawlFuel_empty _ _ _ _ _ _ _ hqe]
      exact h
    · rw [crawlFuel_succ _ _ _ _ _ _ _ _ hqe]
      exact ih _ (crawlStep_downloadInv pages heads bodies base_url dest_root st
        hhb hsome hcoll h)

/-- In a second run over a filesystem where every dispatchable URL
already has its reported size stored, every `processLink` dispatch hits
the skip branch: filesystem untouched, no GET, outcome `skippedExists`. -/
theorem processLink_second_run (heads bodies : String → Option Nat)
    (base_url : String) (dest_root : List String) (current : String)
    (fs1 : Fs) (st : CrawlState) (href : String)
    (hsome : ∀ u, ∃ s, heads u = some s)
    (hfs : st.fs = fs1)
    (hlk : ∀ u ∈ linkDispatchDelta base_url current href,
      fsLookup fs1 (build_local_path u base_url dest_root) = heads u) :
    (processLink heads bodies base_url false dest_root current st href).fs = fs1 ∧
    (processLink heads bodies base_url false dest_root current st href).gets = st.gets ∧
    ∀ p ∈ (processLink heads bodies base_url false dest_root current st href).outcomes,
      p ∈ st.outcomes ∨ p.2 = Outcome.skippedExists := by
  unfold processLink
  by_cases hs : should_skip_link href = true
  · rw [if_pos hs]
    exact ⟨hfs, rfl, fun p hp => Or.inl hp⟩
  · rw [if_neg hs]
    dsimp only
    by_cases hg : (is_same_origin (urldefragStr (urljoin current href)) base_url
        && is_within_base_path (urldefragStr (urljoin current href)) base_url) = true
    · rw [if_pos hg]
      cases hcl : classify_link href
      · exact ⟨hfs, rfl, fun p hp => Or.inl hp⟩
      · -- pdf dispatch: must skip
        dsimp only
        obtain ⟨s, hsz⟩ := hsome (urldefragStr (urljoin current href))
        have habs : urldefragStr (urljoin current href)
            ∈ linkDispatchDelta base_url current href := by
          unfold linkDispatchDelta
          rw [if_neg hs, if_pos hg, hcl]
          exact List.mem_singleton.mpr rfl
        have hL : fsLookup fs1 (build_local_path (urldefragStr (urljoin current href))
            base_url dest_root) = some s := by
          rw [hlk _ habs, hsz]
        rw [hfs, download_file_skip_eq bodies _ _ false _ fs1 s hL hsz]
        refine ⟨rfl, ?_, ?_⟩
        · dsimp only
          simp only [Bool.false_eq_true, if_false, List.append_nil]
        · intro p hp
          dsimp only at hp
          rcases List.mem_append.mp hp with hm | hm
          · exact Or.inl hm
          · rw [List.mem_singleton] at hm
            rw [hm]
            exact Or.inr rfl
      · exact ⟨hfs, rfl, fun p hp => Or.inl hp⟩
      · exact ⟨hfs, rfl, fun p hp => Or.inl hp⟩
    · rw [if_neg hg]
      exact ⟨hfs, rfl, fun p hp => Or.inl hp⟩

theorem foldl_processLink_second_run (heads bodies : String → Option Nat)
    (base_url : String) (dest_root : List String) (current : String) (fs1 : Fs)
    (hsome : ∀ u, ∃ s, heads u = some s) :
    ∀ (links : List String) (st : CrawlState),
    st.fs = fs1 →
    (∀ u ∈ links.flatMap (linkDispatchDelta base_url current),
      fsLookup fs1 (build_local_path u base_url dest_root) = heads u) →
    (links.foldl (processLink heads bodies base_url false dest_root current) st).fs = fs1 ∧
    (links.foldl (processLink heads bodies base_url false dest_root current) st).gets
      = st.gets ∧
    ∀ p ∈ (links.foldl (processLink heads bodies base_url false dest_root current)
        st).outcomes,
      p ∈ st.outcomes ∨ p.2 = Outcome.skippedExists := by
  intro links
  induction links with
  | nil => exact fun st hfs _ => ⟨hfs, rfl, fun p hp => Or.inl hp⟩
  | cons l ls ih =>
    intro st hfs hlk
    have hlk1 : ∀ u ∈ linkDispatchDelta base_url current l,
        fsLookup fs1 (build_local_path u base_url dest_root) = heads u := by
      intro u hu
      exact hlk u (List.mem_flatMap.mpr ⟨l, List.mem_cons_self _ _, hu⟩)
    obtain ⟨h1, h2, h3⟩ := processLink_second_run heads bodies base_url dest_root current
      fs1 st l hsome hfs hlk1
    have hlk2 : ∀ u ∈ ls.flatMap (linkDispatchDelta base_url current),
        fsLookup fs1 (build_local_path u base_url dest_root) = heads u := by
      intro u hu
      rcases List.mem_flatMap.mp hu with ⟨href, hhref, hmem⟩
      exact hlk u (List.mem_flatMap.mpr ⟨href, List.mem_cons_of_mem _ hhref, hmem⟩)
    obtain ⟨g1, g2, g3⟩ := ih (processLink heads bodies base_url false dest_root current st l)
      h1 hlk2
    refine ⟨g1, by rw [List.foldl_cons, g2, h2], ?_⟩
    intro p hp
    rcases g3 p hp with hm | hm
    · rcases h3 p hm with hmm | hmm
      · exact Or.inl hmm
      · exact Or.inr hmm
    · exact Or.inr hm

theorem crawlStep_second_run (pages : List (String × List String))
    (heads bodies : String → Option Nat) (base_url : String)
    (dest_root : List String) (fs1 : Fs)
    (hsome : ∀ u, ∃ s, heads u = some s) (s1 s2 : CrawlState)
    (hq : s2.queue = s1.queue) (hv : s2.visited = s1.visited)
    (hfet : s2.fetched = s1.fetched) (hd : s2.dispatched = s1.dispatched)
    (hfs : s2.fs = fs1) (hgets : s2.gets = [])
    (ho : ∀ p ∈ s2.outcomes, p.2 = Outcome.skippedExists)
    (hlk : ∀ u ∈ (crawlStep pages heads bodies base_url false dest_root s1).dispatched,
      fsLookup fs1 (build_local_path u base_url dest_root) = heads u) :
    (crawlStep pages heads bodies base_url false dest_root s2).queue
      = (crawlStep pages heads bodies base_url false dest_root s1).queue ∧
    (crawlStep pages heads bodies base_url false dest_root s2).visited
      = (crawlStep pages heads bodies base_url false dest_root s1).visited ∧
    (crawlStep pages heads bodies base_url false dest_root s2).fetched
      = (crawlStep pages heads bodies base_url false dest_root s1).fetched ∧
    (crawlStep pages heads bodies base_url false dest_root s2).dispatched
      = (crawlStep pages heads bodies base_url false dest_root s1).dispatched ∧
    (crawlStep pages heads bodies base_url false dest_root s2).fs = fs1 ∧
    (crawlStep pages heads bodies base_url false dest_root s2).gets = [] ∧
    (∀ p ∈ (crawlStep pages heads bodies base_url false dest_root s2).outcomes,
      p.2 = Outcome.skippedExists) := by
  obtain ⟨cq, cv, cf, cd⟩ := crawlStep_control pages base_url heads bodies heads bodies
    false false dest_root dest_root s1 s2 hq hv hfet hd
  refine ⟨cq, cv, cf, cd, ?_⟩
  rcases hql : s1.queue.getLast? with _ | current
  · have hql2 : s2.queue.getLast? = none := by rw [hq, hql]
    rw [crawlStep_empty _ _ _ _ _ _ _ (List.getLast?_eq_none_iff.mp hql2)]
    exact ⟨hfs, hgets, ho⟩
  · have hql2 : s2.queue.getLast? = some current := by rw [hq, hql]
    by_cases hvv : normalize_directory_url current ∈ s1.visited
    · have hvv2 : normalize_directory_url current ∈ s2.visited := by rw [hv]; exact hvv
      rw [crawlStep_visited_case _ _ _ _ _ _ _ _ hql2 hvv2]
      exact ⟨hfs, hgets, ho⟩
    · have hvv2 : normalize_directory_url current ∉ s2.visited := by rw [hv]; exact hvv
      rcases hp : lookupPages pages current with _ | links
      · rw [crawlStep_fresh_none _ _ _ _ _ _ _ _ hql2 hvv2 hp]
        exact ⟨hfs, hgets, ho⟩
      · rw [crawlStep_fresh_some _ _ _ _ _ _ _ _ _ hql2 hvv2 hp]
        have hlk2 : ∀ u ∈ links.flatMap (linkDispatchDelta base_url current),
            fsLookup fs1 (build_local_path u base_url dest_root) = heads u := by
          intro u hu
          apply hlk
          rw [crawlStep_fresh_some _ _ _ _ _ _ _ _ _ hql hvv hp,
            foldl_processLink_dispatched]
          exact List.mem_append_right _ hu
        obtain ⟨r1, r2, r3⟩ := foldl_processLink_second_run heads bodies base_url
          dest_root current fs1 hsome links
          { s2 with queue := s2.queue.dropLast,
                    visited := normalize_directory_url current :: s2.visited,
                    fetched := s2.fetched ++ [current] }
          hfs hlk2
        refine ⟨r1, ?_, ?_⟩
        · rw [r2]
          exact hgets
        · intro p hp
          rcases r3 p hp with hm | hm
          · exact ho p hm
          · exact hm

theorem crawlFuel_second_run (pages : List (String × List String))
    (heads bodies : String → Option Nat) (base_url : String)
    (dest_root : List String) (fs1 : Fs)
    (hsome : ∀ u, ∃ s, heads u = some s) :
    ∀ (n : Nat) (s1 s2 : CrawlState),
    s2.queue = s1.queue → s2.visited = s1.visited → s2.fetched = s1.fetched →
    s2.dispatched = s1.dispatched → s2.fs = fs1 → s2.gets = [] →
    (∀ p ∈ s2.outcomes, p.2 = Outcome.skippedExists) →
    (∀ u ∈ (crawlFuel pages heads bodies base_url false dest_root n s1).dispatched,
      fsLookup fs1 (build_local_path u base_url dest_root) = heads u) →
    (crawlFuel pages heads bodies base_url false dest_root n s2).fs = fs1 ∧
    (crawlFuel pages heads bodies base_url false dest_root n s2).gets = [] ∧
    (∀ p ∈ (crawlFuel pages heads bodies base_url false dest_root n s2).outcomes,
      p.2 = Outcome.skippedExists) := by
  intro n
  induction n with
  | zero => exact fun s1 s2 _ _ _ _ hfs hgets ho _ => ⟨hfs, hgets, ho⟩
  | succ n ih =>
    intro s1 s2 hq hv hfet hd hfs hgets ho hlk
    by_cases hqe : s1.queue = []
    · have hqe2 : s2.queue = [] := by rw [hq, hqe]
      rw [crawlFuel_empty _ _ _ _ _ _ _ hqe2]
      exact ⟨hfs, hgets, ho⟩
    · have hqe2 : s2.queue ≠ [] := by rw [hq]; exact hqe
      have hlkstep : ∀ u ∈ (crawlStep pages heads bodies base_url false dest_root
          s1).dispatched,
          fsLookup fs1 (build_local_path u base_url dest_root) = heads u := by
        intro u hu
        apply hlk
        rw [crawlFuel_succ _ _ _ _ _ _ _ _ hqe]
        exact crawlFuel_dispatched_mem pages heads bodies base_url false dest_root n _ u hu
      obtain ⟨cq, cv, cf, cd, sfs, sgets, so⟩ := crawlStep_second_run pages heads bodies
        base_url dest_root fs1 hsome s1 s2 hq hv hfet hd hfs hgets ho hlkstep
      rw [crawlFuel_succ _ _ _ _ _ _ _ _ hqe2]
      have hlkn : ∀ u ∈ (crawlFuel pages heads bodies base_url false dest_root n
          (crawlStep pages heads bodies base_url false dest_root s1)).dispatched,
          fsLookup fs1 (build_local_path u base_url dest_root) = heads u := by
        intro u hu
        apply hlk
        rw [crawlFuel_succ _ _ _ _ _ _ _ _ hqe]
        exact hu
      exact ih _ _ cq cv cf cd sfs sgets so hlkn

/-! ## Claim C4: idempotence of a second run -/

set_option maxHeartbeats 4000000 in
/-- C4 counterexample: an unchanged remote tree whose server does not
report sizes (every HEAD fails).  The second run over the same
destination re-downloads the file: its single outcome is `downloaded`,
not `skippedExists`, and its GET trace is nonempty — bytes are
transferred again. -/
theorem c4_counterexample :
    (crawl [("https://h/d/", ["a.pdf"])] (fun _ => none)
        (fun u => if u = "https://h/d/a.pdf" then some 100 else none)
        "https://h/d/" ["out"] false 10
        (crawl [("https://h/d/", ["a.pdf"])] (fun _ => none)
          (fun u => if u = "https://h/d/a.pdf" then some 100 else none)
          "https://h/d/" ["out"] false 10 []).fs).outcomes
      = [("https://h/d/a.pdf", Outcome.downloaded)] ∧
    (crawl [("https://h/d/", ["a.pdf"])] (fun _ => none)
        (fun u => if u = "https://h/d/a.pdf" then some 100 else none)
        "https://h/d/" ["out"] false 10
        (crawl [("https://h/d/", ["a.pdf"])] (fun _ => none)
          (fun u => if u = "https://h/d/a.pdf" then some 100 else none)
          "https://h/d/" ["out"] false 10 []).fs).gets
      = ["https://h/d/a.pdf"] ∧
    Outcome.downloaded ≠ Outcome.skippedExists := by
  refine ⟨by decide, by decide, by decide⟩

/-- C4 (amended): running the crawl twice against an unchanged remote
tree and the same destination transfers zero additional file bytes on the
second run — the filesystem is returned unchanged, no file-body GET is
issued, and every outcome reported on the second run is `skippedExists` —
provided the remote tree reports a size for every URL (HEAD always
succeeds), every GET delivers exactly the size HEAD reported, and any two
URLs mapping to the same local path report the same size. -/
theorem c4_second_run_idempotent (pages : List (String × List String))
    (heads bodies : String → Option Nat) (R : String) (dest_root : List String)
    (fs0 : Fs) (F : Nat)
    (hhb : ∀ u, bodies u = heads u)
    (hsome : ∀ u, ∃ s, heads u = some s)
    (hcoll : ∀ u v, build_local_path u (normalize_directory_url R) dest_root
      = build_local_path v (normalize_directory_url R) dest_root → heads u = heads v) :
    (crawl pages heads bodies R dest_root false F
        (crawl pages heads bodies R dest_root false F fs0).fs).fs
      = (crawl pages heads bodies R dest_root false F fs0).fs ∧
    (crawl pages heads bodies R dest_root false F
        (crawl pages heads bodies R dest_root false F fs0).fs).gets = [] ∧
    (∀ p ∈ (crawl pages heads bodies R dest_root false F
        (crawl pages heads bodies R dest_root false F fs0).fs).outcomes,
      p.2 = Outcome.skippedExists) := by
  have hlk := crawlFuel_downloadInv pages heads bodies (normalize_directory_url R)
    dest_root hhb hsome hcoll F (initState R fs0)
    (fun u hu => absurd (hu : u ∈ ([] : List String)) (List.not_mem_nil u))
  exact crawlFuel_second_run pages heads bodies (normalize_directory_url R) dest_root
    (crawlFuel pages heads bodies (normalize_directory_url R) false dest_root F
      (initState R fs0)).fs hsome F (initState R fs0)
    (initState R (crawlFuel pages heads bodies (normalize_directory_url R) false dest_root F
      (initState R fs0)).fs)
    rfl rfl rfl rfl rfl rfl
    (fun p hp => absurd (hp : p ∈ ([] : List (String × Outcome)))
      (List.not_mem_nil p))
    hlk

/-- C4 amended-claim witness: one file of 100 bytes, sizes reported
everywhere and consistent; the second run returns the filesystem
unchanged, issues no GET, and reports only `skippedExists`. -/
theorem c4_second_run_idempotent_witness :
    ((∀ u : String, (fun _ => (some 100 : Option Nat)) u
        = (fun _ => (some 100 : Option Nat)) u) ∧
      (∀ u : String, ∃ s, (fun _ => (some 100 : Option Nat)) u = some s) ∧
      (∀ u v : String,
        build_local_path u (normalize_directory_url "https://h/d/") ["out"]
          = build_local_path v (normalize_directory_url "https://h/d/") ["out"] →
        (fun _ => (some 100 : Option Nat)) u = (fun _ => (some 100 : Option Nat)) v)) ∧
    ((crawl [("https://h/d/", ["a.pdf"])] (fun _ => some 100) (fun _ => some 100)
        "https://h/d/" ["out"] false 10
        (crawl [("https://h/d/", ["a.pdf"])] (fun _ => some 100) (fun _ => some 100)
          "https://h/d/" ["out"] false 10 []).fs).fs
      = (crawl [("https://h/d/", ["a.pdf"])] (fun _ => some 100) (fun _ => some 100)
          "https://h/d/" ["out"] false 10 []).fs ∧
     (crawl [("https://h/d/", ["a.pdf"])] (fun _ => some 100) (fun _ => some 100)
        "https://h/d/" ["out"] false 10
        (crawl [("https://h/d/", ["a.pdf"])] (fun _ => some 100) (fun _ => some 100)
          "https://h/d/" ["out"] false 10 []).fs).gets = [] ∧
     (∀ p ∈ (crawl [("https://h/d/", ["a.pdf"])] (fun _ => some 100) (fun _ => some 100)
        "https://h/d/" ["out"] false 10
        (crawl [("https://h/d/", ["a.pdf"])] (fun _ => some 100) (fun _ => some 100)
          "https://h/d/" ["out"] false 10 []).fs).outcomes,
      p.2 = Outcome.skippedExists)) :=
  ⟨⟨fun _ => rfl, fun _ => ⟨100, rfl⟩, fun _ _ _ => rfl⟩,
    c4_second_run_idempotent [("https://h/d/", ["a.pdf"])] (fun _ => some 100)
      (fun _ => some 100) "https://h/d/" ["out"] [] 10
      (fun _ => rfl) (fun _ => ⟨100, rfl⟩) (fun _ _ _ => rfl)⟩

set_option maxHeartbeats 4000000 in
/-- C6 amended-claim witness: a percent-free URL on which the source
mapping and the spec's percent-decoding description coincide. -/
theorem c6_path_derivation_witness :
    strContainsChar (urlsplitStr "https://h/x/y.pdf").path '%' = false ∧
    build_local_path "https://h/x/y.pdf" "https://h/x/" ["out"]
      = specLocalPath "https://h/x/y.pdf" "https://h/x/" ["out"] :=
  ⟨by decide, c6_path_derivation.2.2.2 "https://h/x/y.pdf" "https://h/x/" ["out"] (by decide)⟩

end DownloadPdfs
